import Mathlib

/-!
Verification of the lineage dependency-graph engine of `snowcli-tools`.

The definitions below are a shallow embedding of the Python sources:

* `src/snowcli_tools/lineage/models.py`   (`Node`, `Edge`, `Graph`)
* `src/snowcli_tools/lineage/traversal.py` (`traverse_dependencies`)
* `src/nanuk_mcp/lineage/impact.py`        (`ImpactAnalyzer`)
* `src/nanuk_mcp/lineage/history.py`       (`LineageHistoryManager`)
* `src/snowcli_tools/lineage/column_parser.py` (`ColumnLineageExtractor`)

Python dictionaries are modelled as insertion-ordered association lists
(`Dict`), Python sets as lists with membership-tested append (`addElem`).
`NodeType` and `EdgeType` in the source are `str`-Enums: an enum member is
equal (and hashes equal) to its string value, so both are modelled as plain
`String`s carrying the enum's value.
-/

namespace SnowLineage

/-- Python `dict`: an insertion-ordered association list.  The operations
below keep the first occurrence of a key authoritative, which coincides with
`dict` behaviour whenever keys are unique (the invariant the operations
maintain). -/
abbrev Dict (K V : Type) : Type := List (K × V)

namespace Dict

variable {K V : Type} [DecidableEq K]

/-- `d.get(k)` / `d[k]` with a `KeyError` turned into `none`. -/
def get? : Dict K V → K → Option V
  | [], _ => none
  | (k', v') :: rest, k => if k' = k then some v' else get? rest k

/-- `k in d`. -/
def contains (m : Dict K V) (k : K) : Bool := (m.get? k).isSome

/-- `d[k] = v`: replace in place if the key exists, else append at the end
(Python dicts preserve insertion order and update in place). -/
def set : Dict K V → K → V → Dict K V
  | [], k, v => [(k, v)]
  | (k', v') :: rest, k, v =>
      if k' = k then (k, v) :: rest else (k', v') :: set rest k v

/-- `d.update(other)`: set every binding of `other`, in order. -/
def update (m other : Dict K V) : Dict K V :=
  other.foldl (fun acc p => acc.set p.1 p.2) m

/-- `list(d.keys())`. -/
def keys (m : Dict K V) : List K := m.map Prod.fst

theorem get?_eq_none_of_not_mem_keys {m : Dict K V} {k : K}
    (h : k ∉ m.keys) : m.get? k = none := by
  induction m with
  | nil => rfl
  | cons p rest ih =>
      simp only [keys, List.map_cons, List.mem_cons] at h
      push_neg at h
      simpa [get?, Ne.symm h.1] using ih h.2

theorem get?_isSome_of_mem_keys {m : Dict K V} {k : K}
    (h : k ∈ m.keys) : (m.get? k).isSome = true := by
  induction m with
  | nil => cases h
  | cons p rest ih =>
      by_cases hk : p.1 = k
      · simp [get?, hk]
      · simp only [keys, List.map_cons, List.mem_cons] at h
        rcases h with h | h
        · exact absurd h.symm hk
        · simpa [get?, hk] using ih h

theorem mem_keys_of_get?_eq_some {m : Dict K V} {k : K} {v : V}
    (h : m.get? k = some v) : k ∈ m.keys := by
  by_contra hk
  rw [get?_eq_none_of_not_mem_keys hk] at h
  exact Option.noConfusion h

theorem mem_of_get?_eq_some {m : Dict K V} {k : K} {v : V}
    (h : m.get? k = some v) : (k, v) ∈ m := by
  induction m with
  | nil => exact Option.noConfusion h
  | cons p rest ih =>
      by_cases hk : p.1 = k
      · simp only [get?, if_pos hk, Option.some.injEq] at h
        have : p = (k, v) := by
          cases p
          simp_all
        simp [this]
      · simp only [get?, if_neg hk] at h
        exact List.mem_cons_of_mem _ (ih h)

theorem get?_set_self (m : Dict K V) (k : K) (v : V) :
    (m.set k v).get? k = some v := by
  induction m with
  | nil => simp [set, get?]
  | cons p rest ih =>
      by_cases hk : p.1 = k
      · simp [set, hk, get?]
      · simp [set, hk, get?, ih]

theorem get?_set_ne (m : Dict K V) {k k' : K} (v : V) (h : k ≠ k') :
    (m.set k v).get? k' = m.get? k' := by
  induction m with
  | nil => simp [set, get?, h]
  | cons p rest ih =>
      by_cases hk : p.1 = k
      · subst hk
        simp [set, get?, h, Ne.symm h]
      · by_cases hk' : p.1 = k'
        · simp [set, hk, get?, hk', Ne.symm h]
        · simp [set, hk, get?, hk', ih]

theorem set_eq_append_of_not_mem_keys {m : Dict K V} {k : K}
    (h : k ∉ m.keys) (v : V) : m.set k v = m ++ [(k, v)] := by
  induction m with
  | nil => rfl
  | cons p rest ih =>
      simp only [keys, List.map_cons, List.mem_cons] at h
      push_neg at h
      simp [set, Ne.symm h.1, ih h.2]

theorem keys_set_of_mem {m : Dict K V} {k : K}
    (h : k ∈ m.keys) (v : V) : (m.set k v).keys = m.keys := by
  induction m with
  | nil => cases h
  | cons p rest ih =>
      by_cases hk : p.1 = k
      · simp [set, hk, keys]
      · simp only [keys, List.map_cons, List.mem_cons] at h
        rcases h with h | h
        · exact absurd h.symm hk
        · simpa [set, hk, keys] using ih h

theorem length_set_of_mem {m : Dict K V} {k : K}
    (h : k ∈ m.keys) (v : V) : (m.set k v).length = m.length := by
  have := keys_set_of_mem h v
  have h1 : (m.set k v).keys.length = m.keys.length := by rw [this]
  simpa [keys] using h1

theorem mem_keys_set {m : Dict K V} {k k' : K} {v : V}
    (h : k' ∈ (m.set k v).keys) : k' ∈ m.keys ∨ k' = k := by
  induction m with
  | nil =>
      simp only [set, keys, List.map_cons, List.map_nil, List.mem_singleton] at h
      exact Or.inr h
  | cons p rest ih =>
      by_cases hk : p.1 = k
      · rw [show Dict.set (p :: rest) k v = (k, v) :: rest by simp [set, hk]] at h
        simp only [keys, List.map_cons, List.mem_cons] at h
        rcases h with h1 | h1
        · exact Or.inr h1
        · exact Or.inl (by
            simp only [keys, List.map_cons, List.mem_cons]
            exact Or.inr h1)
      · rw [show Dict.set (p :: rest) k v = p :: Dict.set rest k v by simp [set, hk]] at h
        simp only [keys, List.map_cons, List.mem_cons] at h
        rcases h with h1 | h1
        · exact Or.inl (by simp [keys, h1])
        · rcases ih h1 with h' | h'
          · exact Or.inl (by
              simp only [keys, List.map_cons, List.mem_cons]
              exact Or.inr h')
          · exact Or.inr h'

theorem keys_nodup_set {m : Dict K V} (h : m.keys.Nodup) (k : K) (v : V) :
    (m.set k v).keys.Nodup := by
  by_cases hk : k ∈ m.keys
  · rw [keys_set_of_mem hk]; exact h
  · rw [set_eq_append_of_not_mem_keys hk]
    simp only [keys, List.map_append, List.map_cons, List.map_nil]
    rw [List.nodup_append]
    exact ⟨h, List.nodup_singleton _, by simpa [keys] using hk⟩

theorem get?_append (m1 m2 : Dict K V) (k : K) :
    (m1 ++ m2).get? k =
      match m1.get? k with
      | some v => some v
      | none => m2.get? k := by
  induction m1 with
  | nil => simp [get?]
  | cons p rest ih =>
      by_cases hk : p.1 = k
      · simp [get?, hk]
      · simpa [get?, hk] using ih

theorem get?_update {other : Dict K V} (m : Dict K V)
    (hnd : other.keys.Nodup) (k : K) :
    (m.update other).get? k =
      match other.get? k with
      | some v => some v
      | none => m.get? k := by
  induction other generalizing m with
  | nil => simp [update, get?]
  | cons p rest ih =>
      simp only [keys, List.map_cons, List.nodup_cons] at hnd
      have step : (m.update (p :: rest)) = (m.set p.1 p.2).update rest := rfl
      rw [step, ih (m.set p.1 p.2) hnd.2 ]
      by_cases hk : p.1 = k
      · subst hk
        rw [get?_eq_none_of_not_mem_keys (by simpa [keys] using hnd.1)]
        simp [get?, get?_set_self]
      · simp [get?, hk, get?_set_ne m p.2 hk]

end Dict

/-- Python `set.add` on a list model: append iff absent. -/
def addElem {A : Type} [DecidableEq A] (l : List A) (a : A) : List A :=
  if a ∈ l then l else l ++ [a]

theorem mem_addElem {A : Type} [DecidableEq A] {l : List A} {a b : A} :
    b ∈ addElem l a ↔ b ∈ l ∨ b = a := by
  unfold addElem
  split
  · rename_i hmem
    constructor
    · exact Or.inl
    · rintro (h | rfl)
      · exact h
      · exact hmem
  · simp

theorem addElem_nodup {A : Type} [DecidableEq A] {l : List A}
    (h : l.Nodup) (a : A) : (addElem l a).Nodup := by
  unfold addElem
  split
  · exact h
  · simpa [List.nodup_append] using ⟨h, by assumption⟩

theorem count_addElem_self {A : Type} [DecidableEq A] {l : List A}
    (h : l.Nodup) (a : A) : (addElem l a).count a = 1 := by
  unfold addElem
  split
  · exact List.count_eq_one_of_mem h (by assumption)
  · rename_i hmem
    rw [List.count_append]
    simp [List.count_eq_zero_of_not_mem hmem]

/-! ## Graph model — `src/snowcli_tools/lineage/models.py`

`NodeType` / `EdgeType` are `str`-Enums in the source (an enum member equals
its `.value` string, and both hash alike, so they are interchangeable as dict
keys); both are therefore embedded as `String`s holding the enum values
`"dataset"`/`"task"` and `"derives_from"`/`"produces"`/`"consumes"`. -/

/-- `models.Node`. -/
structure Node where
  key : String
  node_type : String
  attributes : Dict String String
deriving DecidableEq, Repr

/-- `models.Edge` (the `source`/`target` compatibility properties are aliases
of `src`/`dst` and are not separate state). -/
structure Edge where
  src : String
  dst : String
  edge_type : String
  evidence : Dict String String
deriving DecidableEq, Repr

/-- `models.Graph.__init__`: node map plus adjacency indices plus per-triple
edge metadata. -/
structure Graph where
  nodes : Dict String Node := []
  out_edges : Dict String (Dict String (List String)) := []
  in_edges : Dict String (Dict String (List String)) := []
  edge_metadata : Dict (String × String × String) (Dict String String) := []
deriving DecidableEq, Repr

/-- `Graph()` — the freshly constructed empty graph. -/
def Graph.empty : Graph := {}

/-- `Graph.add_node`. -/
def Graph.add_node (g : Graph) (node : Node) : Graph :=
  match g.nodes.get? node.key with
  | none =>
      { g with
        nodes := g.nodes.set node.key node
        out_edges := g.out_edges.set node.key []
        in_edges := g.in_edges.set node.key [] }
  | some existing =>
      { g with
        nodes := g.nodes.set node.key
          { existing with attributes := existing.attributes.update node.attributes } }

/-- `Graph.add_edge`: auto-create missing endpoints as `dataset` nodes, add
the target to both adjacency sets, then *assign* (not merge) the evidence for
the `(src, dst, edge_type)` triple. -/
def Graph.add_edge (g : Graph) (edge : Edge) : Graph :=
  let g1 := if (g.nodes.get? edge.src).isSome then g
            else g.add_node ⟨edge.src, "dataset", []⟩
  let g2 := if (g1.nodes.get? edge.dst).isSome then g1
            else g1.add_node ⟨edge.dst, "dataset", []⟩
  let outMap := (g2.out_edges.get? edge.src).getD []
  let outSet := (outMap.get? edge.edge_type).getD []
  let g3 := { g2 with
    out_edges := g2.out_edges.set edge.src
      (outMap.set edge.edge_type (addElem outSet edge.dst)) }
  let inMap := (g3.in_edges.get? edge.dst).getD []
  let inSet := (inMap.get? edge.edge_type).getD []
  let g4 := { g3 with
    in_edges := g3.in_edges.set edge.dst
      (inMap.set edge.edge_type (addElem inSet edge.src)) }
  { g4 with
    edge_metadata :=
      g4.edge_metadata.set (edge.src, edge.dst, edge.edge_type) edge.evidence }

/-- `Graph.edges` property: enumerate the adjacency index, attaching the
stored evidence (or `{}`) per triple. -/
def Graph.edges (g : Graph) : List Edge :=
  g.out_edges.flatMap fun p =>
    p.2.flatMap fun q =>
      q.2.map fun dst =>
        ⟨p.1, dst, q.1, (g.edge_metadata.get? (p.1, dst, q.1)).getD []⟩

/-- Serialized graph: the `to_dict` payload (`nodes` and `edges` arrays). -/
structure NodeD where
  key : String
  type : String
  attributes : Dict String String
deriving DecidableEq, Repr

structure EdgeD where
  src : String
  dst : String
  type : String
  evidence : Dict String String
deriving DecidableEq, Repr

structure GraphD where
  nodes : List NodeD
  edges : List EdgeD
deriving DecidableEq, Repr

/-- `Graph.to_dict`.  In the source a `NodeType`/`EdgeType` member serializes
via `.value` and a raw string is emitted as-is; under the `String` embedding
both branches are the identity. -/
def Graph.to_dict (g : Graph) : GraphD :=
  { nodes := g.nodes.map fun p => ⟨p.2.key, p.2.node_type, p.2.attributes⟩
    edges := g.edge_metadata.map fun p => ⟨p.1.1, p.1.2.1, p.1.2.2, p.2⟩ }

/-- `Graph.from_dict`.  The source's `NodeType(...)`/`EdgeType(...)`
normalisation attempt maps a known value string to the equal enum member and
leaves unknown strings untouched — the identity under the `String`
embedding. -/
def Graph.from_dict (payload : GraphD) : Graph :=
  let g := payload.nodes.foldl
    (fun acc nd => acc.add_node ⟨nd.key, nd.type, nd.attributes⟩) Graph.empty
  payload.edges.foldl
    (fun acc ed => acc.add_edge ⟨ed.src, ed.dst, ed.type, ed.evidence⟩) g

/-- Well-formedness: the state invariant of every graph reachable through
`Graph()` / `add_node` / `add_edge` — unique keys everywhere and referential
completeness of the edge structures (edges always auto-create their
endpoints, so endpoints are always present). -/
def Graph.Wf (g : Graph) : Prop :=
  g.nodes.keys.Nodup ∧
  (∀ p ∈ g.nodes, p.2.key = p.1) ∧
  g.edge_metadata.keys.Nodup ∧
  (∀ p ∈ g.edge_metadata,
    (g.nodes.get? p.1.1).isSome ∧ (g.nodes.get? p.1.2.1).isSome) ∧
  g.out_edges.keys.Nodup ∧
  (∀ p ∈ g.out_edges, p.2.keys.Nodup ∧ ∀ q ∈ p.2, q.2.Nodup) ∧
  (∀ p ∈ g.out_edges, (g.nodes.get? p.1).isSome ∧
    ∀ q ∈ p.2, ∀ d ∈ q.2, (g.nodes.get? d).isSome)

instance (g : Graph) : Decidable g.Wf := by
  unfold Graph.Wf
  infer_instance

theorem Graph.add_edge_nodes_of_present (g : Graph) (e : Edge)
    (hs : (g.nodes.get? e.src).isSome = true)
    (hd : (g.nodes.get? e.dst).isSome = true) :
    (g.add_edge e).nodes = g.nodes := by
  simp [add_edge, hs, hd]

theorem Graph.add_edge_metadata (g : Graph) (e : Edge)
    (hs : (g.nodes.get? e.src).isSome = true)
    (hd : (g.nodes.get? e.dst).isSome = true) :
    (g.add_edge e).edge_metadata =
      g.edge_metadata.set (e.src, e.dst, e.edge_type) e.evidence := by
  simp [add_edge, hs, hd]

theorem Graph.add_edge_out_edges (g : Graph) (e : Edge)
    (hs : (g.nodes.get? e.src).isSome = true)
    (hd : (g.nodes.get? e.dst).isSome = true) :
    (g.add_edge e).out_edges =
      g.out_edges.set e.src
        (((g.out_edges.get? e.src).getD []).set e.edge_type
          (addElem ((((g.out_edges.get? e.src).getD []).get? e.edge_type).getD [])
            e.dst)) := by
  simp [add_edge, hs, hd]

/-- C2 counterexample input: the same `(a, b, derives_from)` triple added
twice, first with evidence `{sql: v1}`, then with empty evidence. -/
def gC2a : Graph := Graph.empty.add_edge ⟨"a", "b", "derives_from", [("sql", "v1")]⟩

def gC2b : Graph := gC2a.add_edge ⟨"a", "b", "derives_from", []⟩

/-- C2 counterexample: re-adding an existing edge triple *replaces* the stored
evidence dict (`models.py` line 99 assigns `edge.evidence`), so the previously
stored evidence key `"sql"` is lost — the claim's "merges the new evidence map
into the existing one, losing no previously stored evidence key" fails. -/
theorem c2_counterexample_evidence_overwritten :
    ((gC2a.edge_metadata.get? ("a", "b", "derives_from")).getD []).get? "sql"
        = some "v1"
      ∧ ((gC2b.edge_metadata.get? ("a", "b", "derives_from")).getD []).get? "sql"
        = none := by
  constructor
  · rfl
  · rfl

/-- C2 (amended): adding an edge whose `(source, target, kind)` triple already
exists leaves exactly one edge with that identity (no duplicate in the
metadata map nor in the adjacency set) and *replaces* the stored evidence with
the newly supplied map (it does not merge); adding a node whose key already
exists does not duplicate it and merges the attribute maps, losing no
previously stored attribute key, with new values winning on conflict. -/
theorem c2_edge_identity_and_node_merge (g : Graph) (e : Edge) (n : Node)
    (old : Node) (hwf : g.Wf)
    (he : (g.edge_metadata.get? (e.src, e.dst, e.edge_type)).isSome = true)
    (hn : g.nodes.get? n.key = some old)
    (hattr : n.attributes.keys.Nodup) :
    (g.add_edge e).edge_metadata.get? (e.src, e.dst, e.edge_type) = some e.evidence
    ∧ (g.add_edge e).edge_metadata.keys.countP
        (fun t => decide (t = (e.src, e.dst, e.edge_type))) = 1
    ∧ (((((g.add_edge e).out_edges.get? e.src).getD []).get? e.edge_type).getD []).count
        e.dst = 1
    ∧ (g.add_edge e).nodes = g.nodes
    ∧ (g.add_node n).nodes.length = g.nodes.length
    ∧ (g.add_node n).nodes.get? n.key
        = some { old with attributes := old.attributes.update n.attributes }
    ∧ (∀ k, ((old.attributes.update n.attributes).get? k).isSome
        = ((n.attributes.get? k).isSome || (old.attributes.get? k).isSome))
    ∧ (∀ k v, n.attributes.get? k = some v
        → (old.attributes.update n.attributes).get? k = some v) := by
  obtain ⟨hnd_nodes, _hkeys, hnd_meta, hmeta_nodes, _hnd_out, hout_nodup, _hout_nodes⟩ := hwf
  obtain ⟨ev, hev⟩ := Option.isSome_iff_exists.mp he
  have hmem := Dict.mem_of_get?_eq_some hev
  obtain ⟨hsrc, hdst⟩ := hmeta_nodes _ hmem
  have htriple_mem : (e.src, e.dst, e.edge_type) ∈ g.edge_metadata.keys :=
    Dict.mem_keys_of_get?_eq_some hev
  refine ⟨?_, ?_, ?_, ?_, ?_, ?_, ?_, ?_⟩
  · rw [Graph.add_edge_metadata g e hsrc hdst]
    exact Dict.get?_set_self _ _ _
  · rw [Graph.add_edge_metadata g e hsrc hdst,
      Dict.keys_set_of_mem htriple_mem]
    exact List.count_eq_one_of_mem hnd_meta htriple_mem
  · rw [Graph.add_edge_out_edges g e hsrc hdst]
    rw [Dict.get?_set_self, Option.getD_some, Dict.get?_set_self, Option.getD_some]
    refine count_addElem_self ?_ e.dst
    cases houter : g.out_edges.get? e.src with
    | none => simp [houter, Dict.get?]
    | some m =>
        have hm := Dict.mem_of_get?_eq_some houter
        obtain ⟨_, hinner⟩ := hout_nodup _ hm
        cases hinner2 : m.get? e.edge_type with
        | none => simp [houter, hinner2]
        | some s =>
            have := hinner _ (Dict.mem_of_get?_eq_some hinner2)
            simpa [houter, hinner2] using this
  · exact Graph.add_edge_nodes_of_present g e hsrc hdst
  · simp only [Graph.add_node, hn]
    exact Dict.length_set_of_mem (Dict.mem_keys_of_get?_eq_some hn) _
  · simp only [Graph.add_node, hn]
    exact Dict.get?_set_self _ _ _
  · intro k
    rw [Dict.get?_update old.attributes hattr k]
    cases n.attributes.get? k <;> simp
  · intro k v hv
    rw [Dict.get?_update old.attributes hattr k, hv]

/-- C2 witness: the amended theorem applied at a concrete graph holding node
`a` (attributes `{x: 1}`) and edge `(a, b, derives_from)`. -/
def gC2w : Graph :=
  (Graph.empty.add_node ⟨"a", "dataset", [("x", "1")]⟩).add_edge
    ⟨"a", "b", "derives_from", [("sql", "s")]⟩

theorem c2_edge_identity_and_node_merge_witness :
    (gC2w.add_edge ⟨"a", "b", "derives_from", [("why", "w")]⟩).edge_metadata.get?
        ("a", "b", "derives_from") = some [("why", "w")]
    ∧ (gC2w.add_node ⟨"a", "dataset", [("y", "2")]⟩).nodes.length
        = gC2w.nodes.length := by
  have h := c2_edge_identity_and_node_merge gC2w
    ⟨"a", "b", "derives_from", [("why", "w")]⟩
    ⟨"a", "dataset", [("y", "2")]⟩
    ⟨"a", "dataset", [("x", "1")]⟩
    (by decide) (by decide) (by decide) (by decide)
  exact ⟨h.1, h.2.2.2.2.1⟩

/-! ### C3 — serialization round-trip (`to_dict` / `from_dict`) -/

theorem foldl_add_node_fresh (nds : List NodeD) :
    ∀ g : Graph,
    (∀ nd ∈ nds, g.nodes.get? nd.key = none) →
    (nds.map NodeD.key).Nodup →
    (nds.foldl (fun acc nd => acc.add_node ⟨nd.key, nd.type, nd.attributes⟩) g).nodes
        = g.nodes ++ nds.map (fun nd => (nd.key, ⟨nd.key, nd.type, nd.attributes⟩))
      ∧ (nds.foldl (fun acc nd => acc.add_node ⟨nd.key, nd.type, nd.attributes⟩)
          g).edge_metadata = g.edge_metadata := by
  induction nds with
  | nil => intro g _ _; simp
  | cons nd rest ih =>
      intro g hfresh hnd
      simp only [List.map_cons, List.nodup_cons] at hnd
      have hfresh0 : g.nodes.get? nd.key = none := hfresh nd (by simp)
      have hstep : (g.add_node ⟨nd.key, nd.type, nd.attributes⟩).nodes
          = g.nodes ++ [(nd.key, ⟨nd.key, nd.type, nd.attributes⟩)] := by
        simp only [Graph.add_node, hfresh0]
        exact Dict.set_eq_append_of_not_mem_keys
          (fun hmem => by
            have := Dict.get?_isSome_of_mem_keys hmem
            rw [hfresh0] at this
            exact absurd this (by simp)) _
      have hstepm : (g.add_node ⟨nd.key, nd.type, nd.attributes⟩).edge_metadata
          = g.edge_metadata := by
        simp only [Graph.add_node, hfresh0]
      have hfresh' : ∀ nd' ∈ rest,
          (g.add_node ⟨nd.key, nd.type, nd.attributes⟩).nodes.get? nd'.key = none := by
        intro nd' hnd'
        rw [hstep, Dict.get?_append]
        rw [hfresh nd' (by simp [hnd'])]
        have hne : nd'.key ≠ nd.key := by
          intro hEq
          exact hnd.1 (hEq ▸ List.mem_map_of_mem NodeD.key hnd')
        simp [Dict.get?, Ne.symm hne]
      obtain ⟨ha, hb⟩ := ih (g.add_node ⟨nd.key, nd.type, nd.attributes⟩) hfresh' hnd.2
      constructor
      · simpa [hstep, List.append_assoc] using ha
      · simpa [hstepm] using hb

theorem foldl_add_edge_present (eds : List EdgeD) :
    ∀ g : Graph,
    (∀ ed ∈ eds, (g.nodes.get? ed.src).isSome = true
      ∧ (g.nodes.get? ed.dst).isSome = true) →
    (∀ ed ∈ eds, g.edge_metadata.get? (ed.src, ed.dst, ed.type) = none) →
    (eds.map (fun ed => (ed.src, ed.dst, ed.type))).Nodup →
    (eds.foldl (fun acc ed => acc.add_edge ⟨ed.src, ed.dst, ed.type, ed.evidence⟩)
        g).nodes = g.nodes
      ∧ (eds.foldl (fun acc ed => acc.add_edge ⟨ed.src, ed.dst, ed.type, ed.evidence⟩)
          g).edge_metadata
        = g.edge_metadata
          ++ eds.map (fun ed => ((ed.src, ed.dst, ed.type), ed.evidence)) := by
  induction eds with
  | nil => intro g _ _ _; simp
  | cons ed rest ih =>
      intro g hnodes hfresh hnd
      simp only [List.map_cons, List.nodup_cons] at hnd
      obtain ⟨hs, hd⟩ := hnodes ed (by simp)
      have hstepn : (g.add_edge ⟨ed.src, ed.dst, ed.type, ed.evidence⟩).nodes
          = g.nodes := Graph.add_edge_nodes_of_present g _ hs hd
      have hstepm : (g.add_edge ⟨ed.src, ed.dst, ed.type, ed.evidence⟩).edge_metadata
          = g.edge_metadata ++ [((ed.src, ed.dst, ed.type), ed.evidence)] := by
        rw [Graph.add_edge_metadata g _ hs hd]
        exact Dict.set_eq_append_of_not_mem_keys
          (fun hmem => by
            have h0 := hfresh ed (by simp)
            have := Dict.get?_isSome_of_mem_keys hmem
            rw [h0] at this
            exact absurd this (by simp)) _
      have hnodes' : ∀ ed' ∈ rest,
          ((g.add_edge ⟨ed.src, ed.dst, ed.type, ed.evidence⟩).nodes.get?
            ed'.src).isSome = true
          ∧ ((g.add_edge ⟨ed.src, ed.dst, ed.type, ed.evidence⟩).nodes.get?
            ed'.dst).isSome = true := by
        intro ed' hed'
        rw [hstepn]
        exact hnodes ed' (by simp [hed'])
      have hfresh' : ∀ ed' ∈ rest,
          (g.add_edge ⟨ed.src, ed.dst, ed.type, ed.evidence⟩).edge_metadata.get?
            (ed'.src, ed'.dst, ed'.type) = none := by
        intro ed' hed'
        rw [hstepm, Dict.get?_append]
        rw [hfresh ed' (by simp [hed'])]
        have hne : (ed'.src, ed'.dst, ed'.type) ≠ (ed.src, ed.dst, ed.type) := by
          intro hEq
          exact hnd.1 (hEq ▸ List.mem_map_of_mem _ hed')
        simp [Dict.get?, Ne.symm hne]
      obtain ⟨ha, hb⟩ := ih (g.add_edge ⟨ed.src, ed.dst, ed.type, ed.evidence⟩)
        hnodes' hfresh' hnd.2
      constructor
      · rw [List.foldl_cons, ha, hstepn]
      · rw [List.foldl_cons, hb, hstepm]
        simp [List.append_assoc]

/-- C3: for every well-formed graph `g` (well-formedness being the invariant
every graph built through the `Graph` API satisfies),
`Graph.from_dict (Graph.to_dict g)` restores the node map and the edge
metadata map *verbatim* — in particular the node set (keys, kinds, attribute
maps) and the edge set (`(src, dst, kind)` triples with evidence maps) are
identical. -/
theorem c3_round_trip (g : Graph) (hwf : g.Wf) :
    (Graph.from_dict g.to_dict).nodes = g.nodes
    ∧ (Graph.from_dict g.to_dict).edge_metadata = g.edge_metadata := by
  obtain ⟨hnd_nodes, hkeys, hnd_meta, hmeta_nodes, _, _, _⟩ := hwf
  have hmap_nodes :
      (g.nodes.map fun p => ((⟨p.2.key, p.2.node_type, p.2.attributes⟩ : NodeD))).map
        NodeD.key = g.nodes.keys := by
    rw [List.map_map]
    apply List.map_congr_left
    intro p hp
    exact hkeys p hp
  have phase1 := foldl_add_node_fresh
    (g.nodes.map fun p => ⟨p.2.key, p.2.node_type, p.2.attributes⟩) Graph.empty
    (by intro nd _; rfl)
    (by rw [hmap_nodes]; exact hnd_nodes)
  set g1 := (g.nodes.map fun p =>
      (⟨p.2.key, p.2.node_type, p.2.attributes⟩ : NodeD)).foldl
    (fun acc nd => acc.add_node ⟨nd.key, nd.type, nd.attributes⟩) Graph.empty with hg1
  have hg1nodes : g1.nodes = g.nodes := by
    rw [phase1.1]
    simp only [Graph.empty, List.nil_append, List.map_map]
    calc g.nodes.map ((fun nd => (nd.key, ⟨nd.key, nd.type, nd.attributes⟩)) ∘
          fun p => (⟨p.2.key, p.2.node_type, p.2.attributes⟩ : NodeD))
        = g.nodes.map id := by
          apply List.map_congr_left
          intro p hp
          have := hkeys p hp
          simp only [Function.comp_apply, id]
          cases p with
          | mk k n =>
              cases n
              simp_all
      _ = g.nodes := List.map_id _
  have hg1meta : g1.edge_metadata = [] := by
    rw [phase1.2]; rfl
  have hmap_triples :
      ((g.edge_metadata.map fun p => (⟨p.1.1, p.1.2.1, p.1.2.2, p.2⟩ : EdgeD)).map
        fun ed => (ed.src, ed.dst, ed.type)) = g.edge_metadata.keys := by
    rw [List.map_map]
    apply List.map_congr_left
    intro p _
    rfl
  have phase2 := foldl_add_edge_present
    (g.edge_metadata.map fun p => ⟨p.1.1, p.1.2.1, p.1.2.2, p.2⟩) g1
    (by
      intro ed hed
      rw [hg1nodes]
      simp only [List.mem_map] at hed
      obtain ⟨p, hp, rfl⟩ := hed
      exact hmeta_nodes p hp)
    (by intro ed _; rw [hg1meta]; rfl)
    (by rw [hmap_triples]; exact hnd_meta)
  constructor
  · show (_ : Graph).nodes = g.nodes
    rw [show Graph.from_dict g.to_dict
        = (g.edge_metadata.map fun p => (⟨p.1.1, p.1.2.1, p.1.2.2, p.2⟩ : EdgeD)).foldl
          (fun acc ed => acc.add_edge ⟨ed.src, ed.dst, ed.type, ed.evidence⟩) g1
      from rfl]
    rw [phase2.1, hg1nodes]
  · rw [show Graph.from_dict g.to_dict
        = (g.edge_metadata.map fun p => (⟨p.1.1, p.1.2.1, p.1.2.2, p.2⟩ : EdgeD)).foldl
          (fun acc ed => acc.add_edge ⟨ed.src, ed.dst, ed.type, ed.evidence⟩) g1
      from rfl]
    rw [phase2.2, hg1meta]
    simp only [List.nil_append, List.map_map]
    calc g.edge_metadata.map ((fun ed => ((ed.src, ed.dst, ed.type), ed.evidence)) ∘
          fun p => (⟨p.1.1, p.1.2.1, p.1.2.2, p.2⟩ : EdgeD))
        = g.edge_metadata.map id := by
          apply List.map_congr_left
          intro p _
          rfl
      _ = g.edge_metadata := List.map_id _

/-- C3 witness: the round-trip theorem applied to a concrete two-node,
one-edge graph. -/
def gC3w : Graph :=
  ((Graph.empty.add_node ⟨"db.sch.t1", "dataset", [("name", "t1")]⟩).add_node
    ⟨"db.sch.task::task", "task", []⟩).add_edge
    ⟨"db.sch.task::task", "db.sch.t1", "consumes", [("sql", "insert")]⟩

theorem c3_round_trip_witness :
    (Graph.from_dict gC3w.to_dict).nodes = gC3w.nodes
    ∧ (Graph.from_dict gC3w.to_dict).edge_metadata = gC3w.edge_metadata :=
  c3_round_trip gC3w (by decide)

/-! ## Traversal engine — `src/snowcli_tools/lineage/traversal.py`

`traverse_dependencies` is a BFS whose queue is bounded: every enqueue either
is the initial start node or adds a previously unvisited graph node, so the
loop runs at most `|nodes| + 1` iterations on well-formed graphs; the Lean
embedding makes that bound the structural fuel. -/

/-- The set of edge types present in either adjacency index, defaulting to
all three enum values when the graph has no edges yet. -/
def defaultAllowed (g : Graph) : List String :=
  let fromOut := g.out_edges.foldl (fun acc p => p.2.keys.foldl addElem acc) []
  let all := g.in_edges.foldl (fun acc p => p.2.keys.foldl addElem acc) fromOut
  if all.isEmpty then ["derives_from", "produces", "consumes"] else all

/-- `allowed` as computed at the top of `traverse_dependencies`; note the
Python truthiness test `if edge_types:` sends an *empty* filter list to the
default branch. -/
def allowedTypes (g : Graph) (edge_types : Option (List String)) : List String :=
  match edge_types with
  | some ets => if ets.isEmpty then defaultAllowed g else ets
  | none => defaultAllowed g

/-- BFS state: the subgraph built so far, the visited set, and the
newly queued `(key, dist)` pairs of the current iteration. -/
abbrev TravState : Type := Graph × List String × List (String × Nat)

/-- `depth is None or dist + 1 <= depth`. -/
def depthOk (depth : Option Nat) (dist : Nat) : Bool :=
  match depth with
  | none => true
  | some k => decide (dist + 1 ≤ k)

/-- Innermost loop body (`for neighbor in neighbors` in the source): add the
neighbor's node and the traversed edge to the subgraph, then enqueue the
neighbor if unvisited and within the depth bound.  A neighbor missing from
`graph.nodes` would raise `KeyError` in the source (impossible on well-formed
graphs); the embedding skips it. -/
def visitNeighbor (g : Graph) (depth : Option Nat) (nodeKey : String) (dist : Nat)
    (forward : Bool) (etype : String) (st : TravState) (nb : String) : TravState :=
  match g.nodes.get? nb with
  | none => st
  | some nbNode =>
      let src := if forward then nodeKey else nb
      let dst := if forward then nb else nodeKey
      let evidence := (g.edge_metadata.get? (src, dst, etype)).getD []
      let sub := (st.1.add_node ⟨nbNode.key, nbNode.node_type, nbNode.attributes⟩).add_edge
        ⟨src, dst, etype, evidence⟩
      if nb ∈ st.2.1 then (sub, st.2.1, st.2.2)
      else if depthOk depth dist then (sub, st.2.1 ++ [nb], st.2.2 ++ [(nb, dist + 1)])
      else (sub, st.2.1, st.2.2)

def visitNeighbors (g : Graph) (depth : Option Nat) (nodeKey : String) (dist : Nat)
    (forward : Bool) (etype : String) : List String → TravState → TravState
  | [], st => st
  | nb :: rest, st =>
      visitNeighbors g depth nodeKey dist forward etype rest
        (visitNeighbor g depth nodeKey dist forward etype st nb)

/-- `for edge_type, neighbors in edge_map.get(node_key, {}).items()` with the
`edge_type not in allowed` continue. -/
def visitEntries (g : Graph) (depth : Option Nat) (nodeKey : String) (dist : Nat)
    (forward : Bool) (allowed : List String) :
    List (String × List String) → TravState → TravState
  | [], st => st
  | (etype, nbrs) :: rest, st =>
      visitEntries g depth nodeKey dist forward allowed rest
        (if etype ∈ allowed then
          visitNeighbors g depth nodeKey dist forward etype nbrs st
        else st)

/-- `for edge_map, forward in iterator`. -/
def visitSteps (g : Graph) (depth : Option Nat) (allowed : List String)
    (nodeKey : String) (dist : Nat) :
    List (Dict String (Dict String (List String)) × Bool) → TravState → TravState
  | [], st => st
  | (edgeMap, forward) :: rest, st =>
      visitSteps g depth allowed nodeKey dist rest
        (visitEntries g depth nodeKey dist forward allowed
          ((edgeMap.get? nodeKey).getD []) st)

/-- The `while queue:` loop. -/
def traverseLoop (g : Graph) (direction : String) (allowed : List String)
    (depth : Option Nat) : Nat → List (String × Nat) → List String → Graph → Graph
  | 0, _, _, sub => sub
  | _ + 1, [], _, sub => sub
  | fuel + 1, (nodeKey, dist) :: rest, visited, sub =>
      match g.nodes.get? nodeKey with
      | none => traverseLoop g direction allowed depth fuel rest visited sub
      | some node =>
          let sub1 := sub.add_node ⟨node.key, node.node_type, node.attributes⟩
          let steps :=
            (if direction = "downstream" ∨ direction = "both"
              then [(g.out_edges, true)] else [])
            ++ (if direction = "upstream" ∨ direction = "both"
              then [(g.in_edges, false)] else [])
          let st := visitSteps g depth allowed nodeKey dist steps (sub1, visited, [])
          traverseLoop g direction allowed depth fuel (rest ++ st.2.2) st.2.1 st.1

/-- `traversal.traverse_dependencies`. -/
def traverse_dependencies (g : Graph) (start : String) (direction : String)
    (edge_types : Option (List String)) (depth : Option Nat) : Graph :=
  if (g.nodes.get? start).isSome then
    traverseLoop g direction (allowedTypes g edge_types) depth
      (g.nodes.length + 1) [(start, 0)] [start] Graph.empty
  else Graph.empty

/-- One BFS hop in direction `direction` along an allowed edge type (an
out-edge for downstream, an in-edge for upstream, either for both). -/
def Graph.stepRel (g : Graph) (direction : String) (allowed : List String)
    (x y : String) : Prop :=
  ((direction = "downstream" ∨ direction = "both") ∧
    ∃ p ∈ (g.out_edges.get? x).getD [], p.1 ∈ allowed ∧ y ∈ p.2)
  ∨ ((direction = "upstream" ∨ direction = "both") ∧
    ∃ p ∈ (g.in_edges.get? x).getD [], p.1 ∈ allowed ∧ y ∈ p.2)

/-- `ReachableIn g direction allowed s x n`: there is a traversal path of
length exactly `n` from `s` to `x`; the shortest distance from `s` to `x` is
therefore the least such `n`. -/
inductive ReachableIn (g : Graph) (direction : String) (allowed : List String)
    (s : String) : String → Nat → Prop
  | base : ReachableIn g direction allowed s s 0
  | step {x y : String} {n : Nat} :
      ReachableIn g direction allowed s x n → g.stepRel direction allowed x y →
      ReachableIn g direction allowed s y (n + 1)

theorem reach_zero {g : Graph} {direction : String} {allowed : List String}
    {s x : String} (h : ReachableIn g direction allowed s x 0) : x = s := by
  cases h
  rfl

theorem Graph.mem_keys_add_node {g : Graph} {n : Node} {x : String}
    (h : x ∈ (g.add_node n).nodes.keys) : x ∈ g.nodes.keys ∨ x = n.key := by
  cases hg : g.nodes.get? n.key with
  | none =>
      simp only [Graph.add_node, hg] at h
      exact Dict.mem_keys_set h
  | some old =>
      simp only [Graph.add_node, hg] at h
      exact Dict.mem_keys_set h

theorem Graph.mem_keys_add_edge {g : Graph} {e : Edge} {x : String}
    (h : x ∈ (g.add_edge e).nodes.keys) :
    x ∈ g.nodes.keys ∨ x = e.src ∨ x = e.dst := by
  by_cases h1 : (g.nodes.get? e.src).isSome = true
  · by_cases h2 : (g.nodes.get? e.dst).isSome = true
    · simp only [Graph.add_edge, h1, h2, if_true] at h
      exact Or.inl h
    · simp only [Graph.add_edge, h1, h2, if_true, if_false] at h
      rcases Graph.mem_keys_add_node h with h' | h'
      · exact Or.inl h'
      · exact Or.inr (Or.inr h')
  · simp only [Graph.add_edge, h1, if_false, Bool.false_eq_true] at h
    by_cases h2 :
      ((g.add_node ⟨e.src, "dataset", []⟩).nodes.get? e.dst).isSome = true
    · rw [if_pos h2] at h
      rcases Graph.mem_keys_add_node h with h' | h'
      · exact Or.inl h'
      · exact Or.inr (Or.inl h')
    · rw [if_neg h2] at h
      rcases Graph.mem_keys_add_node h with h' | h'
      · rcases Graph.mem_keys_add_node h' with h'' | h''
        · exact Or.inl h''
        · exact Or.inr (Or.inl h'')
      · exact Or.inr (Or.inr h')

section TraversalInvariant

variable (g : Graph) (direction : String) (allowed : List String) (s : String) (k : Nat)

/-- Every node key of the accumulated subgraph is reachable within `k + 1`
traversal hops from the start node. -/
def NodesBounded (sub : Graph) : Prop :=
  ∀ x ∈ sub.nodes.keys, ∃ n, n ≤ k + 1 ∧ ReachableIn g direction allowed s x n

/-- Every queued pair carries an exact-length reachability certificate with
recorded distance at most `k`. -/
def QueueOk (q : List (String × Nat)) : Prop :=
  ∀ p ∈ q, ReachableIn g direction allowed s p.1 p.2 ∧ p.2 ≤ k

theorem visitNeighbor_inv
    (hkeys : ∀ p ∈ g.nodes, p.2.key = p.1)
    {nodeKey : String} {dist : Nat} {forward : Bool} {etype : String} {nb : String}
    (hdist : dist ≤ k)
    (hreach : ReachableIn g direction allowed s nodeKey dist)
    (hadj : g.stepRel direction allowed nodeKey nb)
    (st : TravState)
    (h1 : NodesBounded g direction allowed s k st.1)
    (h2 : QueueOk g direction allowed s k st.2.2) :
    NodesBounded g direction allowed s k
      (visitNeighbor g (some k) nodeKey dist forward etype st nb).1
    ∧ QueueOk g direction allowed s k
      (visitNeighbor g (some k) nodeKey dist forward etype st nb).2.2 := by
  cases hnb : g.nodes.get? nb with
  | none => simpa [visitNeighbor, hnb] using ⟨h1, h2⟩
  | some nbNode =>
      have hnbkey : nbNode.key = nb := hkeys _ (Dict.mem_of_get?_eq_some hnb)
      have hreach_nb : ReachableIn g direction allowed s nb (dist + 1) :=
        ReachableIn.step hreach hadj
      have hsub : ∀ x ∈ ((st.1.add_node
            ⟨nbNode.key, nbNode.node_type, nbNode.attributes⟩).add_edge
            ⟨(if forward then nodeKey else nb), (if forward then nb else nodeKey),
              etype,
              (g.edge_metadata.get?
                ((if forward then nodeKey else nb),
                  (if forward then nb else nodeKey), etype)).getD []⟩).nodes.keys,
          ∃ n, n ≤ k + 1 ∧ ReachableIn g direction allowed s x n := by
        intro x hx
        rcases Graph.mem_keys_add_edge hx with hx' | hx' | hx'
        · rcases Graph.mem_keys_add_node hx' with hx'' | hx''
          · exact h1 x hx''
          · subst hx''
            exact ⟨dist + 1, by omega, hnbkey ▸ hreach_nb⟩
        · cases forward with
          | true => exact ⟨dist, by omega, hx' ▸ hreach⟩
          | false => exact ⟨dist + 1, by omega, hx' ▸ hreach_nb⟩
        · cases forward with
          | true => exact ⟨dist + 1, by omega, hx' ▸ hreach_nb⟩
          | false => exact ⟨dist, by omega, hx' ▸ hreach⟩
      by_cases hvis : nb ∈ st.2.1
      · constructor
        · simp only [visitNeighbor, hnb, if_pos hvis]
          exact hsub
        · simp only [visitNeighbor, hnb, if_pos hvis]
          exact h2
      · by_cases hok : dist + 1 ≤ k
        · have hok' : depthOk (some k) dist = true := by simp [depthOk, hok]
          constructor
          · simp only [visitNeighbor, hnb, if_neg hvis, hok', if_true]
            exact hsub
          · simp only [visitNeighbor, hnb, if_neg hvis, hok', if_true]
            intro p hp
            rcases List.mem_append.mp hp with hp' | hp'
            · exact h2 p hp'
            · rcases List.mem_singleton.mp hp' with rfl
              exact ⟨hreach_nb, hok⟩
        · have hok' : depthOk (some k) dist = false := by simp [depthOk, hok]
          constructor
          · simp only [visitNeighbor, hnb, if_neg hvis, hok', Bool.false_eq_true,
              if_false]
            exact hsub
          · simp only [visitNeighbor, hnb, if_neg hvis, hok', Bool.false_eq_true,
              if_false]
            exact h2

theorem visitNeighbors_inv
    (hkeys : ∀ p ∈ g.nodes, p.2.key = p.1)
    {nodeKey : String} {dist : Nat} {forward : Bool} {etype : String}
    (hdist : dist ≤ k)
    (hreach : ReachableIn g direction allowed s nodeKey dist)
    (nbs : List String)
    (hadjs : ∀ nb ∈ nbs, g.stepRel direction allowed nodeKey nb) :
    ∀ st : TravState,
    NodesBounded g direction allowed s k st.1 →
    QueueOk g direction allowed s k st.2.2 →
    NodesBounded g direction allowed s k
      (visitNeighbors g (some k) nodeKey dist forward etype nbs st).1
    ∧ QueueOk g direction allowed s k
      (visitNeighbors g (some k) nodeKey dist forward etype nbs st).2.2 := by
  induction nbs with
  | nil => intro st h1 h2; exact ⟨h1, h2⟩
  | cons nb rest ih =>
      intro st h1 h2
      have hstep := @visitNeighbor_inv g direction allowed s k hkeys nodeKey dist
        forward etype nb hdist hreach (hadjs nb (by simp)) st h1 h2
      exact ih (fun nb' h => hadjs nb' (by simp [h])) _ hstep.1 hstep.2

theorem visitEntries_inv
    (hkeys : ∀ p ∈ g.nodes, p.2.key = p.1)
    {nodeKey : String} {dist : Nat} {forward : Bool}
    (hdist : dist ≤ k)
    (hreach : ReachableIn g direction allowed s nodeKey dist)
    (entries : List (String × List String))
    (hentries : ∀ p ∈ entries, p.1 ∈ allowed →
      ∀ nb ∈ p.2, g.stepRel direction allowed nodeKey nb) :
    ∀ st : TravState,
    NodesBounded g direction allowed s k st.1 →
    QueueOk g direction allowed s k st.2.2 →
    NodesBounded g direction allowed s k
      (visitEntries g (some k) nodeKey dist forward allowed entries st).1
    ∧ QueueOk g direction allowed s k
      (visitEntries g (some k) nodeKey dist forward allowed entries st).2.2 := by
  induction entries with
  | nil => intro st h1 h2; exact ⟨h1, h2⟩
  | cons p rest ih =>
      intro st h1 h2
      obtain ⟨etype, nbrs⟩ := p
      by_cases hmem : etype ∈ allowed
      · have hstep := @visitNeighbors_inv g direction allowed s k hkeys nodeKey dist
          forward etype hdist hreach
          nbrs (fun nb h => hentries (etype, nbrs) (by simp) hmem nb h) st h1 h2
        have := ih (fun p h => hentries p (by simp [h])) _ hstep.1 hstep.2
        simpa [visitEntries, hmem] using this
      · have := ih (fun p h => hentries p (by simp [h])) st h1 h2
        simpa [visitEntries, hmem] using this

theorem visitSteps_inv
    (hkeys : ∀ p ∈ g.nodes, p.2.key = p.1)
    {nodeKey : String} {dist : Nat}
    (hdist : dist ≤ k)
    (hreach : ReachableIn g direction allowed s nodeKey dist)
    (steps : List (Dict String (Dict String (List String)) × Bool))
    (hsteps : ∀ q ∈ steps, ∀ p ∈ ((q.1).get? nodeKey).getD [],
      p.1 ∈ allowed → ∀ nb ∈ p.2, g.stepRel direction allowed nodeKey nb) :
    ∀ st : TravState,
    NodesBounded g direction allowed s k st.1 →
    QueueOk g direction allowed s k st.2.2 →
    NodesBounded g direction allowed s k
      (visitSteps g (some k) allowed nodeKey dist steps st).1
    ∧ QueueOk g direction allowed s k
      (visitSteps g (some k) allowed nodeKey dist steps st).2.2 := by
  induction steps with
  | nil => intro st h1 h2; exact ⟨h1, h2⟩
  | cons q rest ih =>
      intro st h1 h2
      obtain ⟨edgeMap, forward⟩ := q
      have hstep := @visitEntries_inv g direction allowed s k hkeys nodeKey dist
        forward hdist hreach
        ((edgeMap.get? nodeKey).getD [])
        (fun p hp => hsteps (edgeMap, forward) (by simp) p hp) st h1 h2
      exact ih (fun q h => hsteps q (by simp [h])) _ hstep.1 hstep.2

theorem traverseLoop_inv
    (hkeys : ∀ p ∈ g.nodes, p.2.key = p.1) :
    ∀ (fuel : Nat) (queue : List (String × Nat)) (visited : List String)
      (sub : Graph),
    QueueOk g direction allowed s k queue →
    NodesBounded g direction allowed s k sub →
    NodesBounded g direction allowed s k
      (traverseLoop g direction allowed (some k) fuel queue visited sub) := by
  intro fuel
  induction fuel with
  | zero => intro queue visited sub _ h2; exact h2
  | succ fuel ih =>
      intro queue visited sub h1 h2
      match queue with
      | [] => exact h2
      | (nodeKey, dist) :: rest =>
          obtain ⟨hreach, hdist⟩ := h1 (nodeKey, dist) (by simp)
          have h1rest : QueueOk g direction allowed s k rest :=
            fun p hp => h1 p (by simp [hp])
          cases hlook : g.nodes.get? nodeKey with
          | none =>
              simp only [traverseLoop, hlook]
              exact ih rest visited sub h1rest h2
          | some node =>
              have hnkey : node.key = nodeKey :=
                hkeys _ (Dict.mem_of_get?_eq_some hlook)
              have hsub1 : NodesBounded g direction allowed s k
                  (sub.add_node ⟨node.key, node.node_type, node.attributes⟩) := by
                intro x hx
                rcases Graph.mem_keys_add_node hx with hx' | hx'
                · exact h2 x hx'
                · subst hx'
                  exact ⟨dist, by omega, hnkey ▸ hreach⟩
              have hsteps : ∀ q ∈ ((if direction = "downstream" ∨ direction = "both"
                    then [(g.out_edges, true)] else [])
                  ++ (if direction = "upstream" ∨ direction = "both"
                    then [(g.in_edges, false)] else [])),
                  ∀ p ∈ ((q.1).get? nodeKey).getD [],
                  p.1 ∈ allowed → ∀ nb ∈ p.2,
                  g.stepRel direction allowed nodeKey nb := by
                intro q hq p hp hpa nb hnb
                rcases List.mem_append.mp hq with hq' | hq'
                · by_cases hdir : direction = "downstream" ∨ direction = "both"
                  · rw [if_pos hdir, List.mem_singleton] at hq'
                    subst hq'
                    exact Or.inl ⟨hdir, p, hp, hpa, hnb⟩
                  · rw [if_neg hdir] at hq'
                    cases hq'
                · by_cases hdir : direction = "upstream" ∨ direction = "both"
                  · rw [if_pos hdir, List.mem_singleton] at hq'
                    subst hq'
                    exact Or.inr ⟨hdir, p, hp, hpa, hnb⟩
                  · rw [if_neg hdir] at hq'
                    cases hq'
              have hst := visitSteps_inv g direction allowed s k hkeys hdist hreach
                _ hsteps
                (sub.add_node ⟨node.key, node.node_type, node.attributes⟩, visited, [])
                hsub1 (by intro p hp; cases hp)
              simp only [traverseLoop, hlook]
              refine ih _ _ _ ?_ hst.1
              intro p hp
              rcases List.mem_append.mp hp with hp' | hp'
              · exact h1rest p hp'
              · exact hst.2 p hp'

end TraversalInvariant

/-- C1 (amended): with `max_depth = k` the traversal, from a well-formed
graph, returns only nodes whose shortest traversal distance from the start
is at most `k + 1` — not `k`: the loop adds each popped node's neighbors to
the result *before* the depth test, which only gates further queueing
(`traversal.py` lines 81-97).  In particular with `max_depth = 0` the result
is the start node plus its immediate neighbors. -/
theorem c1_depth_cap_amended (g : Graph) (s direction : String)
    (ets : Option (List String)) (k : Nat) (hwf : g.Wf)
    (x : String)
    (hx : x ∈ (traverse_dependencies g s direction ets (some k)).nodes.keys) :
    ∃ n, n ≤ k + 1 ∧ ReachableIn g direction (allowedTypes g ets) s x n := by
  obtain ⟨_, hkeys, _⟩ := hwf
  by_cases hs : (g.nodes.get? s).isSome = true
  · rw [traverse_dependencies, if_pos hs] at hx
    refine traverseLoop_inv g direction (allowedTypes g ets) s k hkeys
      (g.nodes.length + 1) [(s, 0)] [s] Graph.empty ?_ ?_ x hx
    · intro p hp
      rcases List.mem_singleton.mp hp with rfl
      exact ⟨ReachableIn.base, by omega⟩
    · intro y hy
      cases hy
  · rw [traverse_dependencies, if_neg hs] at hx
    cases hx

/-- C1 counterexample input: a single edge `a → b`. -/
def gC1 : Graph := Graph.empty.add_edge ⟨"a", "b", "derives_from", []⟩

/-- C1 counterexample: `traverse(G, a, downstream, max_depth=0)` returns the
node `b` although `b`'s shortest distance from `a` is `1 > 0` (there is no
length-0 path to `b`), refuting both "never returns a node whose shortest
distance exceeds k" and "with max_depth=0 the result contains only the start
node itself". -/
theorem c1_counterexample :
    ((traverse_dependencies gC1 "a" "downstream" none (some 0)).nodes.get?
      "b").isSome = true
    ∧ ¬ ReachableIn gC1 "downstream" (allowedTypes gC1 none) "a" "b" 0 := by
  constructor
  · decide
  · intro h
    have := reach_zero h
    simp at this

/-- C1 witness for the amended theorem: instantiated at the concrete graph
`gC1`, start `a`, depth 0, returned node `b`. -/
theorem c1_depth_cap_amended_witness :
    ∃ n, n ≤ 0 + 1 ∧ ReachableIn gC1 "downstream" (allowedTypes gC1 none) "a" "b" n :=
  c1_depth_cap_amended gC1 "a" "downstream" none 0 (by decide) "b" (by decide)

/-- C6: traversal from a start key absent from the graph returns the empty
graph (`traversal.py` lines 34-35); the embedding is a total function, so no
exception is possible on this path. -/
theorem c6_missing_start (g : Graph) (start direction : String)
    (ets : Option (List String)) (depth : Option Nat)
    (h : g.nodes.get? start = none) :
    traverse_dependencies g start direction ets depth = Graph.empty := by
  rw [traverse_dependencies, if_neg]
  rw [h]
  simp

/-- C6 witness: a populated graph traversed from a key it does not contain. -/
theorem c6_missing_start_witness :
    traverse_dependencies gC1 "no-such-key" "both" none none = Graph.empty :=
  c6_missing_start gC1 "no-such-key" "both" none none (by decide)

/-! ## Impact analyzer — `src/nanuk_mcp/lineage/impact.py`

The analyzer builds a `networkx.DiGraph` from the lineage graph (node set =
graph node keys plus edge endpoints; parallel edge kinds collapse into one
directed pair), reverses it, and runs single-source shortest paths with a
depth cutoff.  The embedding realises the networkx calls as a
level-synchronous BFS carrying discovery paths; `float` metadata is embedded
as exact `ℚ`. -/

inductive ChangeType
  | drop
  | alter_schema
  | alter_data_type
  | rename
  | add_column
  | drop_column
  | modify_logic
  | permission_change
  | refresh_schedule
deriving DecidableEq, Repr

/-- `SeverityLevel` (`nanuk_mcp.lineage.types`) is a literal type over the
four strings used by `_severity_for_distance`; embedded as `String`. -/
structure ImpactedObject where
  key : String
  distance : Nat
  severity : String
  path : List String
deriving DecidableEq, Repr

structure ImpactResult where
  source : String
  change_type : ChangeType
  impacted_objects : List ImpactedObject
  metadata : Dict String ℚ
deriving DecidableEq, Repr

/-- Node set of `_build_networkx_graph`'s DiGraph: every graph node key plus
every edge endpoint (`nx.add_edge` auto-adds nodes). -/
def Graph.nxNodes (g : Graph) : List String :=
  g.edges.foldl (fun acc e => addElem (addElem acc e.src) e.dst)
    (g.nodes.keys.foldl addElem [])

/-- Directed edge pairs of the DiGraph (edge kinds collapse per pair). -/
def Graph.nxEdgePairs (g : Graph) : List (String × String) :=
  g.edges.foldl (fun acc e => addElem acc (e.src, e.dst)) []

/-- Successors in the *reversed* DiGraph (= predecessors in the original). -/
def succRev (g : Graph) (x : String) : List String :=
  g.nxEdgePairs.filterMap (fun p => if p.2 = x then some p.1 else none)

/-- A BFS discovery record: node, shortest distance, discovery path from the
source (inclusive), matching `single_source_shortest_path_length` and
`single_source_shortest_path`. -/
structure BfsEntry where
  key : String
  dist : Nat
  path : List String
deriving DecidableEq, Repr

/-- Visit one successor: record it at distance `d` unless already visited. -/
def bfsVisit (d : Nat) (p : List String)
    (acc : List BfsEntry × List (String × List String)) (y : String) :
    List BfsEntry × List (String × List String) :=
  if y ∈ acc.1.map BfsEntry.key then acc
  else (acc.1 ++ [⟨y, d, p ++ [y]⟩], acc.2 ++ [(y, p ++ [y])])

/-- Visit all successors of one frontier element. -/
def bfsChildren (succ : String → List String) (d : Nat)
    (acc : List BfsEntry × List (String × List String)) (x : String × List String) :
    List BfsEntry × List (String × List String) :=
  (succ x.1).foldl (bfsVisit d x.2) acc

/-- The BFS main loop: expand one level at a time (`st.2` is the next
frontier), stopping at the cutoff or when the frontier empties. -/
def bfsRun (succ : String → List String) :
    Nat → List BfsEntry → List (String × List String) → Nat → List BfsEntry
  | 0, visited, _, _ => visited
  | rem + 1, visited, frontier, d =>
      let st := frontier.foldl (bfsChildren succ (d + 1)) (visited, [])
      if st.2.isEmpty then st.1 else bfsRun succ rem st.1 st.2 (d + 1)

/-- Shortest-path BFS from `s` with depth cutoff, as used by
`nx.single_source_shortest_path_length(..., cutoff)` /
`nx.single_source_shortest_path(..., cutoff)`. -/
def bfsPaths (succ : String → List String) (s : String) (cutoff : Nat) :
    List BfsEntry :=
  bfsRun succ cutoff [⟨s, 0, [s]⟩] [(s, [s])] 0

/-- `ImpactAnalyzer._severity_for_distance`. -/
def severity_for_distance (distance : Nat) : String :=
  if distance ≤ 1 then "critical"
  else if distance = 2 then "high"
  else if distance ≤ 4 then "medium"
  else "low"

/-- Severity strictness rank: a strictly higher rank is a stricter (less
"loose") severity. -/
def sevRank (sv : String) : Nat :=
  if sv = "critical" then 3 else if sv = "high" then 2
  else if sv = "medium" then 1 else 0

/-- The `ValueError` message raised for an unknown start node. -/
def impactMissingMsg (key : String) : String :=
  "Lineage node \x27" ++ key ++ "\x27 not found; cannot analyze impact"

/-- `ImpactAnalyzer.analyze_impact`; the raised `ValueError` is embedded as
`Except.error`. -/
def analyze_impact (g : Graph) (node_key : String) (change_type : ChangeType)
    (max_depth : Nat) : Except String ImpactResult :=
  if node_key ∈ g.nxNodes then
    let entries := bfsPaths (succRev g) node_key max_depth
    -- `sorted(lengths.items(), key=distance)` is a stable sort; the BFS dict
    -- is already in nondecreasing distance order, so any comparison sort by
    -- distance computes the same list.
    let sortedE := entries.insertionSort (fun a b => a.dist ≤ b.dist)
    let impacted := (sortedE.filter (fun en => en.key != node_key)).map
      (fun en => (⟨en.key, en.dist, severity_for_distance en.dist, en.path⟩ :
        ImpactedObject))
    let dists := entries.map BfsEntry.dist
    let metadata : Dict String ℚ :=
      [("max_distance", if entries.isEmpty then 0 else ((dists.foldl max 0 : Nat) : ℚ)),
       ("average_distance",
        if entries.isEmpty then 0 else ((dists.sum : ℚ) / (entries.length : ℚ)))]
    .ok ⟨node_key, change_type, impacted, metadata⟩
  else .error (impactMissingMsg node_key)

theorem bfsVisit_fold_ext (d : Nat) (p : List String) (ys : List String) :
    ∀ acc : List BfsEntry × List (String × List String),
    ∃ ext, (ys.foldl (bfsVisit d p) acc).1 = acc.1 ++ ext
      ∧ ((acc.1.map BfsEntry.key).Nodup →
          ((ys.foldl (bfsVisit d p) acc).1.map BfsEntry.key).Nodup) := by
  induction ys with
  | nil => intro acc; exact ⟨[], by simp, fun h => h⟩
  | cons y ys ih =>
      intro acc
      by_cases hy : y ∈ acc.1.map BfsEntry.key
      · have hstep : bfsVisit d p acc y = acc := by simp [bfsVisit, hy]
        obtain ⟨ext, h1, h2⟩ := ih acc
        exact ⟨ext, by simpa [hstep] using h1, by simpa [hstep] using h2⟩
      · have hstep : bfsVisit d p acc y
            = (acc.1 ++ [⟨y, d, p ++ [y]⟩], acc.2 ++ [(y, p ++ [y])]) := by
          simp [bfsVisit, hy]
        obtain ⟨ext, h1, h2⟩ := ih (acc.1 ++ [⟨y, d, p ++ [y]⟩], acc.2 ++ [(y, p ++ [y])])
        refine ⟨⟨y, d, p ++ [y]⟩ :: ext, ?_, ?_⟩
        · simp only [List.foldl_cons, hstep]
          simpa [List.append_assoc] using h1
        · intro hnd
          simp only [List.foldl_cons, hstep]
          refine h2 ?_
          simp only [List.map_append, List.map_cons, List.map_nil]
          rw [List.nodup_append]
          exact ⟨hnd, List.nodup_singleton _, by simpa using hy⟩

theorem bfsChildren_fold_ext (succ : String → List String) (d : Nat)
    (fr : List (String × List String)) :
    ∀ acc : List BfsEntry × List (String × List String),
    ∃ ext, (fr.foldl (bfsChildren succ d) acc).1 = acc.1 ++ ext
      ∧ ((acc.1.map BfsEntry.key).Nodup →
          ((fr.foldl (bfsChildren succ d) acc).1.map BfsEntry.key).Nodup) := by
  induction fr with
  | nil => intro acc; exact ⟨[], by simp, fun h => h⟩
  | cons x fr ih =>
      intro acc
      obtain ⟨ext1, h1, h1n⟩ := bfsVisit_fold_ext d x.2 (succ x.1) acc
      obtain ⟨ext2, h2, h2n⟩ := ih (bfsChildren succ d acc x)
      refine ⟨ext1 ++ ext2, ?_, ?_⟩
      · simp only [List.foldl_cons]
        rw [h2]
        show (bfsChildren succ d acc x).1 ++ ext2 = acc.1 ++ (ext1 ++ ext2)
        rw [show (bfsChildren succ d acc x).1 = acc.1 ++ ext1 from h1,
          List.append_assoc]
      · intro hnd
        simp only [List.foldl_cons]
        exact h2n (h1n hnd)

theorem bfsRun_ext (succ : String → List String) :
    ∀ (rem : Nat) (visited : List BfsEntry)
      (frontier : List (String × List String)) (d : Nat),
    ∃ ext, bfsRun succ rem visited frontier d = visited ++ ext
      ∧ ((visited.map BfsEntry.key).Nodup →
          ((bfsRun succ rem visited frontier d).map BfsEntry.key).Nodup) := by
  intro rem
  induction rem with
  | zero => intro visited frontier d; exact ⟨[], by simp [bfsRun], fun h => h⟩
  | succ rem ih =>
      intro visited frontier d
      obtain ⟨ext1, h1, h1n⟩ := bfsChildren_fold_ext succ (d + 1) frontier (visited, [])
      by_cases hemp :
          (frontier.foldl (bfsChildren succ (d + 1)) (visited, [])).2.isEmpty = true
      · refine ⟨ext1, ?_, ?_⟩
        · simp only [bfsRun, hemp, if_true]
          exact h1
        · intro hnd
          simp only [bfsRun, hemp, if_true]
          exact h1n hnd
      · obtain ⟨ext2, h2, h2n⟩ :=
          ih (frontier.foldl (bfsChildren succ (d + 1)) (visited, [])).1
            (frontier.foldl (bfsChildren succ (d + 1)) (visited, [])).2 (d + 1)
        refine ⟨ext1 ++ ext2, ?_, ?_⟩
        · simp only [bfsRun, hemp, Bool.false_eq_true, if_false]
          rw [h2, h1, List.append_assoc]
        · intro hnd
          simp only [bfsRun, hemp, Bool.false_eq_true, if_false]
          exact h2n (h1n hnd)

theorem bfsPaths_shape (succ : String → List String) (s : String) (cutoff : Nat) :
    ∃ ext, bfsPaths succ s cutoff = ⟨s, 0, [s]⟩ :: ext
      ∧ ((bfsPaths succ s cutoff).map BfsEntry.key).Nodup := by
  obtain ⟨ext, h, hn⟩ := bfsRun_ext succ cutoff [⟨s, 0, [s]⟩] [(s, [s])] 0
  exact ⟨ext, by simpa [bfsPaths] using h, by
    have := hn (by simp)
    simpa [bfsPaths] using this⟩

instance {ε α : Type} [DecidableEq ε] [DecidableEq α] : DecidableEq (Except ε α) :=
  fun x y =>
    match x, y with
    | .ok a, .ok b =>
        if h : a = b then .isTrue (by rw [h])
        else .isFalse (by intro hh; cases hh; exact h rfl)
    | .error a, .error b =>
        if h : a = b then .isTrue (by rw [h])
        else .isFalse (by intro hh; cases hh; exact h rfl)
    | .ok _, .error _ => .isFalse (by intro hh; exact Except.noConfusion hh)
    | .error _, .ok _ => .isFalse (by intro hh; exact Except.noConfusion hh)

theorem severity_antitone {d1 d2 : Nat} (h : d1 < d2) :
    sevRank (severity_for_distance d2) ≤ sevRank (severity_for_distance d1) := by
  unfold severity_for_distance
  split_ifs <;> first | decide | (exfalso; omega)

/-- C4: in every successful impact analysis, each impacted object's severity
is obtained from its distance by exactly the closed mapping of
`_severity_for_distance` (≤1 critical, =2 high, 3-4 medium, ≥5 low), and for
two impacted objects at distances `d1 < d2` the severity at `d1` is never
looser (lower-ranked) than the severity at `d2`. -/
theorem c4_severity_bucketing (g : Graph) (key : String) (ct : ChangeType)
    (md : Nat) (res : ImpactResult)
    (hres : analyze_impact g key ct md = Except.ok res)
    (o1 : ImpactedObject) (h1 : o1 ∈ res.impacted_objects)
    (o2 : ImpactedObject) (h2 : o2 ∈ res.impacted_objects) :
    (o1.severity = if o1.distance ≤ 1 then "critical"
      else if o1.distance = 2 then "high"
      else if o1.distance ≤ 4 then "medium" else "low")
    ∧ (o1.distance < o2.distance → sevRank o2.severity ≤ sevRank o1.severity) := by
  by_cases hc : key ∈ g.nxNodes
  · simp only [analyze_impact, if_pos hc, Except.ok.injEq] at hres
    subst hres
    simp only [List.mem_map] at h1 h2
    obtain ⟨en1, _, rfl⟩ := h1
    obtain ⟨en2, _, rfl⟩ := h2
    exact ⟨rfl, fun hlt => severity_antitone hlt⟩
  · simp only [analyze_impact, if_neg hc] at hres
    exact absurd hres (by simp)

def gI4 : Graph :=
  (Graph.empty.add_edge ⟨"b", "a", "derives_from", []⟩).add_edge
    ⟨"c", "b", "derives_from", []⟩

def resI4 : ImpactResult :=
  ⟨"a", ChangeType.drop,
    [⟨"b", 1, "critical", ["a", "b"]⟩, ⟨"c", 2, "high", ["a", "b", "c"]⟩],
    [("max_distance", 2), ("average_distance", 1)]⟩

def oI4b : ImpactedObject := ⟨"b", 1, "critical", ["a", "b"]⟩

def oI4c : ImpactedObject := ⟨"c", 2, "high", ["a", "b", "c"]⟩

/-- Concrete evaluation of the analyzer on the chain `c → b → a`; the graph
part evaluates by `decide`, the `ℚ` metadata by `norm_num`. -/
theorem analyze_gI4_eq : analyze_impact gI4 "a" ChangeType.drop 5 = Except.ok resI4 := by
  have hb : bfsPaths (succRev gI4) "a" 5
      = [⟨"a", 0, ["a"]⟩, ⟨"b", 1, ["a", "b"]⟩, ⟨"c", 2, ["a", "b", "c"]⟩] := by
    decide
  rw [analyze_impact, if_pos (show "a" ∈ gI4.nxNodes by decide)]
  show Except.ok _ = _
  rw [Except.ok.injEq]
  show ImpactResult.mk _ _ _ _ = _
  rw [resI4, ImpactResult.mk.injEq]
  rw [hb]
  refine ⟨rfl, rfl, by decide, ?_⟩
  norm_num

/-- C4 witness: the severity theorem applied to the concrete chain
`c → b → a` analysed at `a`. -/
theorem c4_severity_bucketing_witness :
    (oI4b.severity = if oI4b.distance ≤ 1 then "critical"
      else if oI4b.distance = 2 then "high"
      else if oI4b.distance ≤ 4 then "medium" else "low")
    ∧ (oI4b.distance < oI4c.distance → sevRank oI4c.severity ≤ sevRank oI4b.severity) :=
  c4_severity_bucketing gI4 "a" ChangeType.drop 5 resI4 analyze_gI4_eq
    oI4b (by decide) oI4c (by decide)

theorem mem_foldl_addElem {A : Type} [DecidableEq A] (l : List A) :
    ∀ (init : List A) (x : A), x ∈ l.foldl addElem init ↔ x ∈ init ∨ x ∈ l := by
  induction l with
  | nil => intro init x; simp
  | cons a l ih =>
      intro init x
      rw [List.foldl_cons, ih (addElem init a) x, mem_addElem]
      simp only [List.mem_cons]
      tauto

theorem mem_nxNodes {g : Graph} {x : String} :
    x ∈ g.nxNodes ↔
      x ∈ g.nodes.keys ∨ ∃ e ∈ g.edges, x = e.src ∨ x = e.dst := by
  have hgen : ∀ (es : List Edge) (init : List String),
      x ∈ es.foldl (fun acc e => addElem (addElem acc e.src) e.dst) init ↔
        x ∈ init ∨ ∃ e ∈ es, x = e.src ∨ x = e.dst := by
    intro es
    induction es with
    | nil => intro init; simp
    | cons e es ih =>
        intro init
        rw [List.foldl_cons, ih, mem_addElem, mem_addElem]
        simp only [List.mem_cons]
        constructor
        · rintro (((h | h) | h) | ⟨e', he', h⟩)
          · exact Or.inl h
          · exact Or.inr ⟨e, Or.inl rfl, Or.inl h⟩
          · exact Or.inr ⟨e, Or.inl rfl, Or.inr h⟩
          · exact Or.inr ⟨e', Or.inr he', h⟩
        · rintro (h | ⟨e', (rfl | he'), h⟩)
          · exact Or.inl (Or.inl (Or.inl h))
          · rcases h with h | h
            · exact Or.inl (Or.inl (Or.inr h))
            · exact Or.inl (Or.inr h)
          · exact Or.inr ⟨e', he', h⟩
  rw [Graph.nxNodes, hgen, mem_foldl_addElem]
  simp

theorem edges_endpoints_present {g : Graph} (hwf : g.Wf) :
    ∀ e ∈ g.edges, (g.nodes.get? e.src).isSome = true
      ∧ (g.nodes.get? e.dst).isSome = true := by
  obtain ⟨_, _, _, _, _, _, hout⟩ := hwf
  intro e he
  simp only [Graph.edges, List.mem_flatMap, List.mem_map] at he
  obtain ⟨p, hp, q, hq, d, hd, rfl⟩ := he
  obtain ⟨hsrc, hdst⟩ := hout p hp
  exact ⟨hsrc, hdst q hq d hd⟩

/-- C5: impact analysis started at a key that is not a node of a well-formed
graph returns the `ValueError` message, which names the missing key (the
message decomposes around the key), and never returns a result. -/
theorem c5_unknown_start_error (g : Graph) (key : String) (ct : ChangeType)
    (md : Nat) (hwf : g.Wf) (hmiss : g.nodes.get? key = none) :
    analyze_impact g key ct md = Except.error (impactMissingMsg key)
    ∧ impactMissingMsg key
        = "Lineage node \x27" ++ key ++ "\x27 not found; cannot analyze impact"
    ∧ (∀ res : ImpactResult, analyze_impact g key ct md ≠ Except.ok res) := by
  have hnot : key ∉ g.nxNodes := by
    rw [mem_nxNodes]
    rintro (hk | ⟨e, he, rfl | rfl⟩)
    · have := Dict.get?_isSome_of_mem_keys hk
      rw [hmiss] at this
      exact absurd this (by simp)
    · have := (edges_endpoints_present hwf e he).1
      rw [hmiss] at this
      exact absurd this (by simp)
    · have := (edges_endpoints_present hwf e he).2
      rw [hmiss] at this
      exact absurd this (by simp)
  refine ⟨?_, rfl, ?_⟩
  · rw [analyze_impact, if_neg hnot]
  · intro res hok
    rw [analyze_impact, if_neg hnot] at hok
    exact Except.noConfusion hok

def gI1 : Graph := Graph.empty.add_edge ⟨"b", "a", "derives_from", []⟩

/-- C5 witness: analysing the missing key `ghost` on a concrete graph. -/
theorem c5_unknown_start_error_witness :
    analyze_impact gI1 "ghost" ChangeType.drop 5
        = Except.error (impactMissingMsg "ghost")
    ∧ impactMissingMsg "ghost"
        = "Lineage node \x27" ++ "ghost" ++ "\x27 not found; cannot analyze impact"
    ∧ (∀ res : ImpactResult,
        analyze_impact gI1 "ghost" ChangeType.drop 5 ≠ Except.ok res) :=
  c5_unknown_start_error gI1 "ghost" ChangeType.drop 5 (by decide) (by decide)

instance : RightCommutative (max : ℕ → ℕ → ℕ) :=
  ⟨fun b a1 a2 => by rw [max_assoc, max_comm a1 a2, ← max_assoc]⟩

/-- C8 (amended): the reported maximum distance is the maximum over the
impacted objects' distances (0 when none), but the reported average is the
arithmetic mean over *all* BFS-reached nodes **including the start node at
distance 0**: sum of impacted distances divided by (number impacted + 1) —
`impact.py` lines 89-94 aggregate `lengths.values()`, which still contains
the start entry that line 77 skips. -/
theorem c8_metadata_amended (g : Graph) (key : String) (ct : ChangeType)
    (md : Nat) (res : ImpactResult)
    (hres : analyze_impact g key ct md = Except.ok res) :
    res.metadata.get? "max_distance"
      = some ((((res.impacted_objects.map ImpactedObject.distance).foldl max 0 : ℕ) : ℚ))
    ∧ res.metadata.get? "average_distance"
      = some ((((res.impacted_objects.map ImpactedObject.distance).sum : ℕ) : ℚ)
          / ((res.impacted_objects.length : ℚ) + 1)) := by
  by_cases hc : key ∈ g.nxNodes
  · simp only [analyze_impact, if_pos hc, Except.ok.injEq] at hres
    subst hres
    obtain ⟨ext, hshape, hnodup⟩ := bfsPaths_shape (succRev g) key md
    have hkey_notin : ∀ en ∈ ext, en.key ≠ key := by
      intro en hen hEq
      rw [hshape] at hnodup
      simp only [List.map_cons, List.nodup_cons] at hnodup
      exact hnodup.1 (hEq ▸ List.mem_map_of_mem BfsEntry.key hen)
    have hfilter : (bfsPaths (succRev g) key md).filter
        (fun en => en.key != key) = ext := by
      rw [hshape]
      rw [List.filter_cons]
      have h0 : ((⟨key, 0, [key]⟩ : BfsEntry).key != key) = false := by simp
      rw [h0]
      simp only [Bool.false_eq_true, if_false]
      apply List.filter_eq_self.mpr
      intro en hen
      simpa using hkey_notin en hen
    have hperm : List.Perm
        (((bfsPaths (succRev g) key md).insertionSort
          (fun a b => a.dist ≤ b.dist)).filter (fun en => en.key != key))
        ext := by
      have hp : List.Perm
          (((bfsPaths (succRev g) key md).insertionSort
            (fun a b => a.dist ≤ b.dist)).filter (fun en => en.key != key))
          ((bfsPaths (succRev g) key md).filter (fun en => en.key != key)) :=
        (List.perm_insertionSort _ _).filter _
      rw [hfilter] at hp
      exact hp
    have hpermd : List.Perm
        ((((bfsPaths (succRev g) key md).insertionSort
          (fun a b => a.dist ≤ b.dist)).filter (fun en => en.key != key)).map
            BfsEntry.dist)
        (ext.map BfsEntry.dist) := hperm.map _
    have hdists : (bfsPaths (succRev g) key md).map BfsEntry.dist
        = 0 :: ext.map BfsEntry.dist := by rw [hshape]; rfl
    have hne : (bfsPaths (succRev g) key md).isEmpty = false := by
      rw [hshape]; rfl
    have hmapdist : ∀ (l : List BfsEntry),
        (l.map (fun en => (⟨en.key, en.dist, severity_for_distance en.dist,
          en.path⟩ : ImpactedObject))).map ImpactedObject.distance
        = l.map BfsEntry.dist := by
      intro l
      rw [List.map_map]
      rfl
    constructor
    · show Dict.get? _ _ = _
      rw [show Dict.get?
          [("max_distance", if (bfsPaths (succRev g) key md).isEmpty then (0 : ℚ)
            else ((((bfsPaths (succRev g) key md).map BfsEntry.dist).foldl max 0 : ℕ) : ℚ)),
           ("average_distance", if (bfsPaths (succRev g) key md).isEmpty then (0 : ℚ)
            else ((((bfsPaths (succRev g) key md).map BfsEntry.dist).sum : ℕ) : ℚ)
              / ((bfsPaths (succRev g) key md).length : ℚ))] "max_distance"
          = some (if (bfsPaths (succRev g) key md).isEmpty then (0 : ℚ)
            else ((((bfsPaths (succRev g) key md).map BfsEntry.dist).foldl max 0 : ℕ) : ℚ))
        from rfl]
      rw [hne]
      simp only [Bool.false_eq_true, if_false, Option.some.injEq]
      rw [hmapdist, hdists]
      have : (0 :: ext.map BfsEntry.dist).foldl max 0
          = (ext.map BfsEntry.dist).foldl max 0 := rfl
      rw [this, hpermd.foldl_eq 0]
    · show Dict.get? _ _ = _
      rw [show Dict.get?
          [("max_distance", if (bfsPaths (succRev g) key md).isEmpty then (0 : ℚ)
            else ((((bfsPaths (succRev g) key md).map BfsEntry.dist).foldl max 0 : ℕ) : ℚ)),
           ("average_distance", if (bfsPaths (succRev g) key md).isEmpty then (0 : ℚ)
            else ((((bfsPaths (succRev g) key md).map BfsEntry.dist).sum : ℕ) : ℚ)
              / ((bfsPaths (succRev g) key md).length : ℚ))] "average_distance"
          = some (if (bfsPaths (succRev g) key md).isEmpty then (0 : ℚ)
            else ((((bfsPaths (succRev g) key md).map BfsEntry.dist).sum : ℕ) : ℚ)
              / ((bfsPaths (succRev g) key md).length : ℚ))
        from rfl]
      rw [hne]
      simp only [Bool.false_eq_true, if_false, Option.some.injEq]
      rw [hmapdist, hdists]
      have hsum : (0 :: ext.map BfsEntry.dist).sum = (ext.map BfsEntry.dist).sum := by
        simp
      have hlen : (bfsPaths (succRev g) key md).length = ext.length + 1 := by
        rw [hshape]; rfl
      rw [hsum, hlen, hpermd.sum_eq]
      simp only [List.length_map]
      rw [hperm.length_eq]
      push_cast
      ring
  · simp only [analyze_impact, if_neg hc] at hres
    exact absurd hres (by simp)

def resC8 : ImpactResult :=
  ⟨"a", ChangeType.drop, [⟨"b", 1, "critical", ["a", "b"]⟩],
    [("max_distance", 1), ("average_distance", 1/2)]⟩

theorem analyze_gI1_eq : analyze_impact gI1 "a" ChangeType.drop 5 = Except.ok resC8 := by
  have hb : bfsPaths (succRev gI1) "a" 5
      = [⟨"a", 0, ["a"]⟩, ⟨"b", 1, ["a", "b"]⟩] := by decide
  rw [analyze_impact, if_pos (show "a" ∈ gI1.nxNodes by decide)]
  show Except.ok _ = _
  rw [Except.ok.injEq]
  show ImpactResult.mk _ _ _ _ = _
  rw [resC8, ImpactResult.mk.injEq]
  rw [hb]
  refine ⟨rfl, rfl, by decide, ?_⟩
  norm_num

/-- C8 counterexample: for the single dependent `b` of `a` (distance 1), the
code reports `average_distance = 1/2` — the mean over `{a: 0, b: 1}`
including the start node — whereas the arithmetic mean of the impacted
nodes' distances is `1`; the claim's exclusion of the start node fails. -/
theorem c8_counterexample :
    analyze_impact gI1 "a" ChangeType.drop 5 = Except.ok resC8
    ∧ resC8.metadata.get? "average_distance" = some ((1 : ℚ)/2)
    ∧ ((resC8.impacted_objects.map ImpactedObject.distance).sum : ℚ)
        / (resC8.impacted_objects.length : ℚ) = 1
    ∧ ((1 : ℚ)/2) ≠ 1 := by
  refine ⟨analyze_gI1_eq, rfl, ?_, ?_⟩
  · norm_num [resC8]
  · norm_num

/-- C8 witness: the amended metadata theorem at the concrete chain
`c → b → a` (max = 2, average = (1 + 2) / (2 + 1) = 1). -/
theorem c8_metadata_amended_witness :
    resI4.metadata.get? "max_distance"
      = some ((((resI4.impacted_objects.map ImpactedObject.distance).foldl max 0 : ℕ) : ℚ))
    ∧ resI4.metadata.get? "average_distance"
      = some ((((resI4.impacted_objects.map ImpactedObject.distance).sum : ℕ) : ℚ)
          / ((resI4.impacted_objects.length : ℚ) + 1)) :=
  c8_metadata_amended gI4 "a" ChangeType.drop 5 resI4 analyze_gI4_eq

/-! ## Snapshot history manager — `src/nanuk_mcp/lineage/history.py`

`capture_snapshot` builds the graph, writes the payload file
(`_save_snapshot`), appends the index entry (`_append_snapshot`), then runs
`_enforce_retention`.  The embedding keeps the durable state — the index list
and the set of payload file names — and leaves the payload contents out (they
do not affect retention).  ISO-8601 timestamps compare lexicographically in
chronological order; they are embedded as `Nat`.  The random
`secrets.token_hex` snapshot id is a caller-supplied parameter. -/

structure LineageSnapshot where
  snapshot_id : String
  timestamp : Nat
  catalog_path : String
  tag : Option String
  description : Option String
  storage_file : Option String
deriving DecidableEq, Repr

structure HistoryState where
  index : List LineageSnapshot
  files : List String
deriving DecidableEq, Repr

/-- `Path.unlink(missing_ok=True)`. -/
def removeFile (fs : List String) (f : String) : List String :=
  fs.filter (fun x => x != f)

/-- The unlink loop of `_enforce_retention`. -/
def pruneFiles (fs : List String) (l : List LineageSnapshot) : List String :=
  l.foldl
    (fun fs snap =>
      match snap.storage_file with
      | some f => removeFile fs f
      | none => fs) fs

/-- `LineageHistoryManager._enforce_retention` (with the configured
`Limits.MAX_SNAPSHOTS` as a parameter). -/
def enforce_retention (maxSnapshots : Nat) (st : HistoryState) : HistoryState :=
  if st.index.length ≤ maxSnapshots then st
  else
    let surplus := st.index.length - maxSnapshots
    { index := st.index.drop surplus
      files := pruneFiles st.files (st.index.take surplus) }

/-- `LineageHistoryManager.capture_snapshot`, restricted to its durable-state
effects: write the payload file, append the index entry, enforce retention. -/
def capture_snapshot (st : HistoryState) (maxSnapshots : Nat) (sid : String)
    (timestamp : Nat) (catalog_path : String) (tag description : Option String) :
    HistoryState × LineageSnapshot :=
  let file_name := sid ++ ".json"
  let snap : LineageSnapshot :=
    ⟨sid, timestamp, catalog_path, tag, description, some file_name⟩
  let st1 : HistoryState := { st with files := addElem st.files file_name }
  let st2 : HistoryState := { st1 with index := st1.index ++ [snap] }
  (enforce_retention maxSnapshots st2, snap)

theorem mem_removeFile {fs : List String} {f x : String} :
    x ∈ removeFile fs f ↔ x ∈ fs ∧ x ≠ f := by
  simp [removeFile]

theorem pruneFiles_cons_some {fs : List String} {q : LineageSnapshot}
    {fq : String} (hq : q.storage_file = some fq) (rest : List LineageSnapshot) :
    pruneFiles fs (q :: rest) = pruneFiles (removeFile fs fq) rest := by
  simp [pruneFiles, hq]

theorem pruneFiles_cons_none {fs : List String} {q : LineageSnapshot}
    (hq : q.storage_file = none) (rest : List LineageSnapshot) :
    pruneFiles fs (q :: rest) = pruneFiles fs rest := by
  simp [pruneFiles, hq]

theorem not_mem_pruneFiles_of_not_mem {x : String} :
    ∀ (l : List LineageSnapshot) (fs : List String), x ∉ fs → x ∉ pruneFiles fs l := by
  intro l
  induction l with
  | nil => intro fs h; exact h
  | cons q rest ih =>
      intro fs h
      cases hq : q.storage_file with
      | none =>
          rw [pruneFiles_cons_none hq]
          exact ih _ h
      | some fq =>
          rw [pruneFiles_cons_some hq]
          refine ih _ ?_
          intro hmem
          exact h (mem_removeFile.mp hmem).1

theorem not_mem_pruneFiles {f : String} :
    ∀ (l : List LineageSnapshot) (fs : List String) (p : LineageSnapshot),
    p ∈ l → p.storage_file = some f → f ∉ pruneFiles fs l := by
  intro l
  induction l with
  | nil => intro fs p hp; cases hp
  | cons q rest ih =>
      intro fs p hp hf
      rcases List.mem_cons.mp hp with rfl | hp'
      · rw [pruneFiles_cons_some hf]
        exact not_mem_pruneFiles_of_not_mem rest _ (by simp [mem_removeFile])
      · cases hq : q.storage_file with
        | none =>
            rw [pruneFiles_cons_none hq]
            exact ih _ p hp' hf
        | some fq =>
            rw [pruneFiles_cons_some hq]
            exact ih _ p hp' hf

theorem mem_pruneFiles {f : String} :
    ∀ (l : List LineageSnapshot) (fs : List String), f ∈ fs →
    (∀ q ∈ l, ∀ fq, q.storage_file = some fq → fq ≠ f) →
    f ∈ pruneFiles fs l := by
  intro l
  induction l with
  | nil => intro fs hf _; exact hf
  | cons q rest ih =>
      intro fs hf havoid
      cases hq : q.storage_file with
      | none =>
          rw [pruneFiles_cons_none hq]
          exact ih fs hf (fun q' h' => havoid q' (by simp [h']))
      | some fq =>
          rw [pruneFiles_cons_some hq]
          refine ih _ ?_ (fun q' h' => havoid q' (by simp [h']))
          rw [mem_removeFile]
          exact ⟨hf, fun hEq => havoid q (by simp) fq hq (hEq ▸ rfl)⟩

/-- C9: after a capture on an index whose entries are timestamp-sorted (the
operational invariant: captures append with the current time), at most the
configured maximum of snapshots remain, the retained index is exactly the
newest suffix, every pruned snapshot's timestamp is at most every retained
one's, each pruned snapshot's payload file is removed, and every retained
snapshot's payload file is still present (payload file names are pairwise
distinct, as the random hex ids are). -/
theorem c9_retention_after_capture (st : HistoryState) (maxS : Nat) (sid : String)
    (ts : Nat) (cp : String) (tag desc : Option String)
    (hsorted : st.index.Pairwise (fun a b => a.timestamp ≤ b.timestamp))
    (hts : ∀ s ∈ st.index, s.timestamp ≤ ts)
    (hfiles : ∀ s ∈ st.index, ∀ f, s.storage_file = some f → f ∈ st.files)
    (hdistinct : ((st.index
        ++ [(⟨sid, ts, cp, tag, desc, some (sid ++ ".json")⟩ : LineageSnapshot)]).filterMap
          LineageSnapshot.storage_file).Nodup) :
    (capture_snapshot st maxS sid ts cp tag desc).1.index.length ≤ maxS
    ∧ (capture_snapshot st maxS sid ts cp tag desc).1.index
        = (st.index ++ [(⟨sid, ts, cp, tag, desc, some (sid ++ ".json")⟩ : LineageSnapshot)]).drop
            (st.index.length + 1 - maxS)
    ∧ (∀ p ∈ (st.index ++ [(⟨sid, ts, cp, tag, desc, some (sid ++ ".json")⟩ : LineageSnapshot)]).take
          (st.index.length + 1 - maxS),
        (∀ r ∈ (capture_snapshot st maxS sid ts cp tag desc).1.index,
          p.timestamp ≤ r.timestamp)
        ∧ (∀ f, p.storage_file = some f
            → f ∉ (capture_snapshot st maxS sid ts cp tag desc).1.files))
    ∧ (∀ r ∈ (capture_snapshot st maxS sid ts cp tag desc).1.index,
        ∀ f, r.storage_file = some f
          → f ∈ (capture_snapshot st maxS sid ts cp tag desc).1.files) := by
  have hcap : capture_snapshot st maxS sid ts cp tag desc
      = (enforce_retention maxS
          ⟨st.index ++ [(⟨sid, ts, cp, tag, desc, some (sid ++ ".json")⟩ : LineageSnapshot)],
            addElem st.files (sid ++ ".json")⟩,
          ⟨sid, ts, cp, tag, desc, some (sid ++ ".json")⟩) := rfl
  rw [hcap]
  set snapN : LineageSnapshot := ⟨sid, ts, cp, tag, desc, some (sid ++ ".json")⟩
    with hsnapN
  set full : List LineageSnapshot := st.index ++ [snapN] with hfull
  have hlenfull : full.length = st.index.length + 1 := by
    simp [hfull]
  have hfull_sorted : full.Pairwise (fun a b => a.timestamp ≤ b.timestamp) := by
    rw [hfull]
    rw [List.pairwise_append]
    refine ⟨hsorted, List.pairwise_singleton _ _, ?_⟩
    intro a ha b hb
    rcases List.mem_singleton.mp hb with rfl
    exact hts a ha
  have hfiles2 : ∀ s ∈ full, ∀ f, s.storage_file = some f
      → f ∈ addElem st.files (sid ++ ".json") := by
    intro s hs f hf
    rcases List.mem_append.mp hs with hs' | hs'
    · exact mem_addElem.mpr (Or.inl (hfiles s hs' f hf))
    · rcases List.mem_singleton.mp hs' with rfl
      refine mem_addElem.mpr (Or.inr ?_)
      rw [hsnapN] at hf
      simpa using hf.symm
  by_cases hle : full.length ≤ maxS
  · have henf : enforce_retention maxS ⟨full, addElem st.files (sid ++ ".json")⟩
        = ⟨full, addElem st.files (sid ++ ".json")⟩ := by
      rw [enforce_retention, if_pos (by simpa using hle)]
    rw [henf]
    have hz : st.index.length + 1 - maxS = 0 := by omega
    rw [hz]
    refine ⟨by simpa using hle, by simp, ?_, ?_⟩
    · intro p hp
      simp at hp
    · intro r hr f hf
      exact hfiles2 r hr f hf
  · have henf : enforce_retention maxS ⟨full, addElem st.files (sid ++ ".json")⟩
        = ⟨full.drop (full.length - maxS),
            pruneFiles (addElem st.files (sid ++ ".json"))
              (full.take (full.length - maxS))⟩ := by
      rw [enforce_retention, if_neg (by simpa using hle)]
    rw [henf]
    have hsur : full.length - maxS = st.index.length + 1 - maxS := by omega
    rw [← hsur]
    have hcross : ∀ p ∈ full.take (full.length - maxS),
        ∀ r ∈ full.drop (full.length - maxS), p.timestamp ≤ r.timestamp := by
      have hsplit := List.take_append_drop (full.length - maxS) full
      have := hfull_sorted
      rw [← hsplit] at this
      exact (List.pairwise_append.mp this).2.2
    have hdisj : ∀ p ∈ full.take (full.length - maxS), ∀ fp,
        p.storage_file = some fp →
        ∀ r ∈ full.drop (full.length - maxS), ∀ fr,
        r.storage_file = some fr → fp ≠ fr := by
      have hsplit := List.take_append_drop (full.length - maxS) full
      have hnd := hdistinct
      rw [← hsplit, List.filterMap_append] at hnd
      rw [List.nodup_append] at hnd
      intro p hp fp hfp r hr fr hfr hEq
      exact hnd.2.2 (List.mem_filterMap.mpr ⟨p, hp, hfp⟩)
        (by rw [hEq]; exact List.mem_filterMap.mpr ⟨r, hr, hfr⟩)
    refine ⟨?_, rfl, ?_, ?_⟩
    · have := List.length_drop (full.length - maxS) full
      rw [this]
      omega
    · intro p hp
      constructor
      · intro r hr
        exact hcross p hp r hr
      · intro f hf
        exact not_mem_pruneFiles _ _ p hp hf
    · intro r hr f hf
      refine mem_pruneFiles _ _ (hfiles2 r (by
        have : full.drop (full.length - maxS) ⊆ full := List.drop_subset _ _
        exact this hr) f hf) ?_
      intro q hq fq hfq
      exact hdisj q hq fq hfq r hr f hf

def stC9 : HistoryState :=
  ⟨[⟨"id1", 10, "cat", none, none, some "id1.json"⟩], ["id1.json"]⟩

/-- C9 witness: with `MAX_SNAPSHOTS = 1`, capturing a second snapshot prunes
the older one -- index entry and payload file -- and keeps the new one. -/
theorem c9_retention_after_capture_witness :
    (capture_snapshot stC9 1 "id2" 20 "cat" none none).1.index.length ≤ 1
    ∧ (capture_snapshot stC9 1 "id2" 20 "cat" none none).1.index
        = ((stC9.index ++ [(⟨"id2", 20, "cat", none, none, some ("id2" ++ ".json")⟩ : LineageSnapshot)]).drop
            (stC9.index.length + 1 - 1))
    ∧ (∀ p ∈ (stC9.index ++ [(⟨"id2", 20, "cat", none, none, some ("id2" ++ ".json")⟩ : LineageSnapshot)]).take
          (stC9.index.length + 1 - 1),
        (∀ r ∈ (capture_snapshot stC9 1 "id2" 20 "cat" none none).1.index,
          p.timestamp ≤ r.timestamp)
        ∧ (∀ f, p.storage_file = some f
            → f ∉ (capture_snapshot stC9 1 "id2" 20 "cat" none none).1.files))
    ∧ (∀ r ∈ (capture_snapshot stC9 1 "id2" 20 "cat" none none).1.index,
        ∀ f, r.storage_file = some f
          → f ∈ (capture_snapshot stC9 1 "id2" 20 "cat" none none).1.files) :=
  c9_retention_after_capture stC9 1 "id2" 20 "cat" none none
    (by decide) (by decide) (by decide) (by decide)

/-! ## Column lineage extractor — `src/snowcli_tools/lineage/column_parser.py`

The SQL dialect parser (sqlglot) is the external collaborator of §1 of the
spec: the statement tree it produces is embedded as the inductive family
below, covering the node shapes `_process_single_column` branches on.  A
`func` node carries the sqlglot class name (used both for the
aggregate-name check and, as `sql_name`, for `function_name`) and the
`is_aggregate` / window-argument flags.  Empty strings model sqlglot's
falsy `""` accessors (`col.table`, `expr.alias`).  `cached_sql_parse` is a
pure memoisation of parsing, so the parse result is taken as the input
(`ParseResult`). -/

structure SqlTable where
  catalog : String
  db : String
  name : String
  aliasName : String
deriving DecidableEq, Repr

mutual

inductive SqlExpr : Type where
  | column (name : String) (table : String)
  | aliasE (inner : SqlExpr) (name : String)
  | func (className : String) (is_aggregate : Bool) (hasWindowArg : Bool)
      (args : List SqlExpr)
  | caseWhen (operands : List SqlExpr)
  | subquery (query : SqlSelect)
  | literal (text : String)
  | star (table : String)

inductive SqlSelect : Type where
  | mk (ctes : List SqlCte) (tables : List SqlTable) (projections : List SqlExpr)

inductive SqlCte : Type where
  | mk (name : String) (query : SqlSelect)

end

def SqlSelect.projections : SqlSelect → List SqlExpr
  | .mk _ _ p => p

def SqlCte.name : SqlCte → String
  | .mk n _ => n

def SqlCte.query : SqlCte → SqlSelect
  | .mk _ q => q

mutual

/-- `expr.find_all(exp.Column)` as `(name, table)` pairs. -/
def exprColumns : SqlExpr → List (String × String)
  | .column n t => [(n, t)]
  | .aliasE e _ => exprColumns e
  | .func _ _ _ args => exprsColumns args
  | .caseWhen ops => exprsColumns ops
  | .subquery q => selectColumns q
  | .literal _ => []
  | .star _ => []

def exprsColumns : List SqlExpr → List (String × String)
  | [] => []
  | e :: rest => exprColumns e ++ exprsColumns rest

def selectColumns : SqlSelect → List (String × String)
  | .mk ctes _ projs => ctesColumns ctes ++ exprsColumns projs

def ctesColumns : List SqlCte → List (String × String)
  | [] => []
  | c :: rest => cteColumns c ++ ctesColumns rest

def cteColumns : SqlCte → List (String × String)
  | .mk _ q => selectColumns q

end

mutual

/-- `stmt.find_all(exp.Table)`. -/
def exprTables : SqlExpr → List SqlTable
  | .column _ _ => []
  | .aliasE e _ => exprTables e
  | .func _ _ _ args => exprsTables args
  | .caseWhen ops => exprsTables ops
  | .subquery q => selectTables q
  | .literal _ => []
  | .star _ => []

def exprsTables : List SqlExpr → List SqlTable
  | [] => []
  | e :: rest => exprTables e ++ exprsTables rest

def selectTables : SqlSelect → List SqlTable
  | .mk ctes tables projs => ctesTables ctes ++ tables ++ exprsTables projs

def ctesTables : List SqlCte → List SqlTable
  | [] => []
  | c :: rest => cteTables c ++ ctesTables rest

def cteTables : SqlCte → List SqlTable
  | .mk _ q => selectTables q

end

mutual

/-- `stmt.find_all(exp.CTE)`. -/
def exprCtes : SqlExpr → List SqlCte
  | .column _ _ => []
  | .aliasE e _ => exprCtes e
  | .func _ _ _ args => exprsCtes args
  | .caseWhen ops => exprsCtes ops
  | .subquery q => selectAllCtes q
  | .literal _ => []
  | .star _ => []

def exprsCtes : List SqlExpr → List SqlCte
  | [] => []
  | e :: rest => exprCtes e ++ exprsCtes rest

def selectAllCtes : SqlSelect → List SqlCte
  | .mk ctes _ projs => ctesCtes ctes ++ exprsCtes projs

def ctesCtes : List SqlCte → List SqlCte
  | [] => []
  | c :: rest => (c :: cteCtes c) ++ ctesCtes rest

def cteCtes : SqlCte → List SqlCte
  | .mk _ q => selectAllCtes q

end

mutual

/-- `expr.sql()` — the dialect rendering of a subtree (a model; only its
injectivity on the concrete inputs of this file matters). -/
def SqlExpr.sql : SqlExpr → String
  | .column n t => if t = "" then n else t ++ "." ++ n
  | .aliasE e n => SqlExpr.sql e ++ " AS " ++ n
  | .func cn _ _ args => cn ++ "(" ++ SqlExpr.sqlList args ++ ")"
  | .caseWhen ops => "CASE " ++ SqlExpr.sqlList ops ++ " END"
  | .subquery _ => "(SELECT ...)"
  | .literal v => v
  | .star t => if t = "" then "*" else t ++ ".*"

def SqlExpr.sqlList : List SqlExpr → String
  | [] => ""
  | [e] => SqlExpr.sql e
  | e :: rest => SqlExpr.sql e ++ ", " ++ SqlExpr.sqlList rest

end

/-- `expr.alias` (the empty string when the node is not an Alias). -/
def exprAlias : SqlExpr → String
  | .aliasE _ n => n
  | _ => ""

inductive TransformationType : Type where
  | direct
  | aliasT
  | function
  | aggregate
  | caseWhen
  | window
  | join
  | subquery
  | literal
  | unknown
deriving DecidableEq, Repr

/-- Modelled from the spec: `identifiers.normalize` (imported by
`column_parser.py`) is not under `src/`; §3's canonical
`DATABASE.SCHEMA.NAME` keys suggest a pure per-identifier normalisation.
The claims settled here depend on it only through injectivity on the
distinct names of the concrete inputs, so it is taken as the identity. -/
def normalize (s : String) : String := s

structure QualifiedColumn where
  table : String
  column : String
  database : Option String := none
  schema : Option String := none
  aliasName : Option String := none
deriving DecidableEq, Repr

/-- `QualifiedColumn.fqn` (Python `__eq__`/`__hash__` compare through it). -/
def QualifiedColumn.fqn (qc : QualifiedColumn) : String :=
  String.intercalate "."
    ((match qc.database with | some d => [normalize d] | none => [])
      ++ (match qc.schema with | some sc => [normalize sc] | none => [])
      ++ [normalize qc.table, normalize qc.column])

structure ColumnTransformation where
  source_columns : List QualifiedColumn
  target_column : QualifiedColumn
  transformation_type : TransformationType
  transformation_sql : String
  confidence : ℚ := 1
  function_name : Option String := none
deriving DecidableEq, Repr

structure ColumnLineageGraph where
  transformations : List ColumnTransformation := []
  column_dependencies : Dict String (List String) := []
  issues : List String := []
deriving DecidableEq, Repr

/-- `ColumnLineageGraph.add_transformation`. -/
def ColumnLineageGraph.add_transformation (g : ColumnLineageGraph)
    (t : ColumnTransformation) : ColumnLineageGraph :=
  let target_fqn := t.target_column.fqn
  let deps0 := if (g.column_dependencies.get? target_fqn).isSome
    then g.column_dependencies
    else g.column_dependencies.set target_fqn []
  let deps := t.source_columns.foldl
    (fun d sc => d.set target_fqn (addElem ((d.get? target_fqn).getD []) sc.fqn))
    deps0
  { g with transformations := g.transformations ++ [t]
           column_dependencies := deps }

/-- The extractor's constructor parameters and mutable instance state
(`_table_aliases`, `_cte_columns` persist across calls). -/
structure ColumnLineageExtractor where
  default_database : Option String := none
  default_schema : Option String := none
  table_aliases : Dict String String := []
  cte_columns : Dict String (List String) := []
deriving DecidableEq, Repr

/-- `_resolve_table_name`. -/
def resolve_table_name (st : ColumnLineageExtractor) (table_ref : String) : String :=
  match st.table_aliases.get? table_ref with
  | some t => t
  | none => table_ref

/-- `_resolve_column` on a Column node's `(name, table)`. -/
def resolve_column (st : ColumnLineageExtractor) (name table : String) :
    Option QualifiedColumn :=
  let table_name := if table ≠ "" then resolve_table_name st table else ""
  if table_name = "" then none
  else some ⟨table_name, name, st.default_database, st.default_schema, none⟩

/-- `_extract_columns_from_expression`. -/
def extract_columns_from_expression (st : ColumnLineageExtractor) (e : SqlExpr) :
    List QualifiedColumn :=
  (exprColumns e).filterMap (fun p => resolve_column st p.1 p.2)

/-- `_extract_columns_from_subquery`. -/
def extract_columns_from_subquery (st : ColumnLineageExtractor) (q : SqlSelect) :
    List QualifiedColumn :=
  (selectColumns q).filterMap (fun p => resolve_column st p.1 p.2)

def aggregateNames : List String :=
  ["SUM", "AVG", "COUNT", "MAX", "MIN", "STDDEV", "VARIANCE"]

/-- `_determine_transformation_type`. -/
def determine_transformation_type : SqlExpr → TransformationType
  | .func cn agg _ _ =>
      if agg then .aggregate
      else if cn.toUpper ∈ aggregateNames then .aggregate
      else .function
  | .caseWhen _ => .caseWhen
  | .subquery _ => .subquery
  | .column _ _ => .direct
  | .literal _ => .literal
  | _ => .unknown

/-- `_extract_table_name` on a Table node (`db`, then `catalog`, then `name`,
in the source's order). -/
def extract_table_name (t : SqlTable) : String :=
  String.intercalate "."
    ((if t.db ≠ "" then [t.db] else [])
      ++ (if t.catalog ≠ "" then [t.catalog] else []) ++ [t.name])

/-- `_extract_table_aliases`: register `alias → full name` for every aliased
table in the tree (mutates instance state). -/
def extract_table_aliases (st : ColumnLineageExtractor) (sel : SqlSelect) :
    ColumnLineageExtractor :=
  (selectTables sel).foldl
    (fun st t =>
      if t.aliasName ≠ "" then
        if extract_table_name t ≠ "" then
          { st with
            table_aliases := (st.table_aliases.set t.aliasName (extract_table_name t)) }
        else st
      else st)
    st

/-- `_extract_ctes`: record each CTE's output column names (mutates instance
state). -/
def extract_ctes (st : ColumnLineageExtractor) (sel : SqlSelect) :
    ColumnLineageExtractor :=
  (selectAllCtes sel).foldl
    (fun st c =>
      if c.name ≠ "" then
        { st with
          cte_columns := (st.cte_columns.set c.name
            (c.query.projections.filterMap (fun e =>
              if exprAlias e ≠ "" then some (exprAlias e)
              else match e with
                | .column n _ => some n
                | _ => none))) }
      else st)
    st

/-- `_process_single_column`: classify one select-list expression and append
a `ColumnTransformation` for it.  The `func` branch carries `sql_name`
through `className` (the same field drives the aggregate-name check the
source performs on `__class__.__name__.upper()`). -/
def process_single_column (st : ColumnLineageExtractor) (expr : SqlExpr)
    (graph : ColumnLineageGraph) (target_table : String)
    (target_column_name : Option String) : ColumnLineageGraph :=
  let tcn := match target_column_name with
    | some n => n
    | none =>
        if exprAlias expr ≠ "" then exprAlias expr
        else match expr with
          | .column n _ => n
          | _ => "column_" ++ toString (graph.transformations.length + 1)
  let target_column : QualifiedColumn :=
    ⟨target_table, tcn, st.default_database, st.default_schema, none⟩
  let sql_text := expr.sql
  let scf : List QualifiedColumn × TransformationType × Option String :=
    match expr with
    | .column n t =>
        (match resolve_column st n t with
          | some sc => ([sc], .direct, none)
          | none => ([], .unknown, none))
    | .aliasE inner _ =>
        (match inner with
          | .column n t =>
              (match resolve_column st n t with
                | some sc => ([sc], .aliasT, none)
                | none => ([], .unknown, none))
          | .func cn _ _ _ =>
              (extract_columns_from_expression st inner,
                determine_transformation_type inner, some cn)
          | _ =>
              (extract_columns_from_expression st inner,
                determine_transformation_type inner, none))
    | .func cn agg win _ =>
        (extract_columns_from_expression st expr,
          if agg then .aggregate
          else if win then .window
          else if cn.toUpper ∈ aggregateNames then .aggregate
          else .function,
          some cn)
    | .caseWhen _ =>
        (extract_columns_from_expression st expr, .caseWhen, none)
    | .subquery q =>
        (extract_columns_from_subquery st q, .subquery, none)
    | .literal _ => ([], .literal, none)
    | _ =>
        (extract_columns_from_expression st expr,
          determine_transformation_type expr, none)
  let confidence : ℚ := if scf.1.isEmpty then 1/2 else 1
  graph.add_transformation
    ⟨scf.1, target_column, scf.2.1, sql_text.take 500, confidence, scf.2.2⟩

/-- `_process_star_column`. -/
def process_star_column (st : ColumnLineageExtractor) (table : String)
    (graph : ColumnLineageGraph) : ColumnLineageGraph :=
  if table ≠ "" then
    { graph with issues := graph.issues
        ++ ["Star expansion from " ++ resolve_table_name st table
            ++ " not fully resolved"] }
  else
    { graph with issues := graph.issues
        ++ ["Star expansion across all tables not fully resolved"] }

/-- `_process_select_columns` (with `enumerate`'s index; the Python
`target_columns[i] if target_columns and i < len(...) else None` is the
guarded lookup). -/
def process_select_columns_go (st : ColumnLineageExtractor) (target_table : String)
    (target_columns : List String) :
    Nat → List SqlExpr → ColumnLineageGraph → ColumnLineageGraph
  | _, [], graph => graph
  | i, e :: rest, graph =>
      match e with
      | .star t =>
          process_select_columns_go st target_table target_columns (i + 1) rest
            (process_star_column st t graph)
      | _ =>
          let tcn := if target_columns.isEmpty then none else target_columns.get? i
          process_select_columns_go st target_table target_columns (i + 1) rest
            (process_single_column st e graph target_table tcn)

def process_select_columns (st : ColumnLineageExtractor) (sel : SqlSelect)
    (graph : ColumnLineageGraph) (target_table : String)
    (target_columns : List String) : ColumnLineageGraph :=
  process_select_columns_go st target_table target_columns 0 sel.projections graph

/-- `_process_select_statement` (this is the only path that writes the
instance's alias/CTE state). -/
def process_select_statement (st : ColumnLineageExtractor) (sel : SqlSelect)
    (graph : ColumnLineageGraph) (target_table : Option String) :
    ColumnLineageExtractor × ColumnLineageGraph :=
  let tt := match target_table with
    | some t => if t = "" then "SELECT_RESULT" else t
    | none => "SELECT_RESULT"
  let st1 := extract_ctes st sel
  let st2 := extract_table_aliases st1 sel
  (st2, process_select_columns st2 sel graph tt [])

/-- `_process_create_statement`.  When neither the statement nor the caller
supplies a target name the source passes Python `None` down; the embedding
uses `""` for that (a corner none of the claims touches). -/
def process_create_statement (st : ColumnLineageExtractor)
    (target : Option SqlTable) (query : Option SqlSelect)
    (graph : ColumnLineageGraph) (target_table : Option String) :
    ColumnLineageGraph :=
  let tn0 := match target with
    | some t => extract_table_name t
    | none => ""
  let table_name := if tn0 = "" then (target_table.getD "") else tn0
  match query with
  | some q => process_select_columns st q graph table_name []
  | none => graph

/-- `_process_insert_statement`. -/
def process_insert_statement (st : ColumnLineageExtractor)
    (target : Option SqlTable) (columns : List String)
    (query : Option SqlSelect) (graph : ColumnLineageGraph) :
    ColumnLineageGraph :=
  let table_name := match target with
    | some t => extract_table_name t
    | none => ""
  match query with
  | some q => process_select_columns st q graph table_name columns
  | none => graph

/-- `_process_update_columns`: one `SET`-pair list of an `exp.Update`. -/
def process_update_columns (st : ColumnLineageExtractor)
    (pairs : List (SqlExpr × SqlExpr)) (graph : ColumnLineageGraph)
    (target_table : String) : ColumnLineageGraph :=
  pairs.foldl
    (fun g p =>
      match p.1 with
      | .column n _ =>
          let source_columns := extract_columns_from_expression st p.2
          g.add_transformation
            ⟨source_columns,
              ⟨target_table, n, st.default_database, st.default_schema, none⟩,
              determine_transformation_type p.2,
              (p.2.sql).take 500,
              (if source_columns.isEmpty then 1/2 else 1),
              none⟩
      | _ => g)
    graph

/-- `_process_merge_statement` (the `whens × updates` nesting flattened to
the list of `SET`-pair lists it iterates). -/
def process_merge_statement (st : ColumnLineageExtractor)
    (target : Option SqlTable) (updateSets : List (List (SqlExpr × SqlExpr)))
    (graph : ColumnLineageGraph) : ColumnLineageGraph :=
  let tt := match target with
    | some t => extract_table_name t
    | none => ""
  updateSets.foldl (fun g ps => process_update_columns st ps g tt) graph

inductive SqlStmt : Type where
  | create (target : Option SqlTable) (query : Option SqlSelect)
  | insert (target : Option SqlTable) (columns : List String)
      (query : Option SqlSelect)
  | select (sel : SqlSelect)
  | merge (target : Option SqlTable)
      (updateSets : List (List (SqlExpr × SqlExpr)))
  | other

/-- The outcome of `cached_sql_parse` (a pure memoisation of the dialect
parser): failure, a single statement, or a multi-statement list. -/
inductive ParseResult : Type where
  | failed
  | single (stmt : SqlStmt)
  | multi (stmts : List SqlStmt)

/-- `utils.validate_object_name`: each dot-separated part, stripped of
double quotes, must match `^[A-Za-z_][A-Za-z0-9_$.]*$`. -/
def validPartChars : List Char → Bool
  | [] => false
  | c :: rest =>
      (c.isAlpha || c = '_')
        && rest.all (fun ch => ch.isAlphanum || ch = '_' || ch = '$' || ch = '.')

def stripQuotes (s : String) : String :=
  String.mk (((s.data.dropWhile (fun c => c = '"')).reverse.dropWhile
    (fun c => c = '"')).reverse)

def validate_object_name (name : String) : Bool :=
  if name = "" then false
  else (name.splitOn ".").all (fun part => validPartChars (stripQuotes part).data)

/-- The statement-type dispatch of `extract_column_lineage`. -/
def dispatch_statement (st : ColumnLineageExtractor) (stmt : SqlStmt)
    (graph : ColumnLineageGraph) (target_table : Option String) :
    ColumnLineageExtractor × ColumnLineageGraph :=
  match stmt with
  | .create target query =>
      (st, process_create_statement st target query graph target_table)
  | .insert target cols query =>
      (st, process_insert_statement st target cols query graph)
  | .select sel => process_select_statement st sel graph target_table
  | .merge target us => (st, process_merge_statement st target us graph)
  | .other => (st, graph)

/-- `ColumnLineageExtractor.extract_column_lineage`, state-passing: the
returned state is the instance state after the call. -/
def extract_column_lineage (st : ColumnLineageExtractor) (parsed : ParseResult)
    (target_table : Option String) : ColumnLineageExtractor × ColumnLineageGraph :=
  let graph : ColumnLineageGraph := {}
  let invalid : Bool := match target_table with
    | some tt => (tt != "") && !(validate_object_name tt)
    | none => false
  if invalid then
    (st, { graph with issues := graph.issues
        ++ ["Invalid target table name: " ++ (target_table.getD "")] })
  else
    match parsed with
    | .failed => (st, { graph with issues := graph.issues ++ ["Failed to parse SQL"] })
    | .single stmt => dispatch_statement st stmt graph target_table
    | .multi stmts =>
        let graph := { graph with issues := graph.issues
          ++ ["Multi-statement SQL detected, processing first statement only"] }
        match stmts with
        | [] => (st, graph)
        | stmt :: _ => dispatch_statement st stmt graph target_table

/-! ### C7 — bare column references -/

/-- C7 (amended): a select-list entry that is a bare column reference is
classified `direct` with exactly one source column and confidence 1.0 *only
when the reference carries a table qualifier* (that resolves to a non-empty
name); an unqualified bare column resolves to no source
(`_resolve_column` returns `None` without a table), so the entry is
classified `unknown` with no source columns and confidence 0.5. -/
theorem c7_bare_column_amended (st : ColumnLineageExtractor)
    (graph : ColumnLineageGraph) (tt : String) (tcn : Option String)
    (nm tbl : String) :
    (tbl ≠ "" → resolve_table_name st tbl ≠ "" →
      (process_single_column st (.column nm tbl) graph tt tcn).transformations.map
          (fun t => (t.transformation_type, t.source_columns.length, t.confidence))
        = graph.transformations.map
            (fun t => (t.transformation_type, t.source_columns.length, t.confidence))
          ++ [(TransformationType.direct, 1, (1 : ℚ))])
    ∧ (tbl = "" →
      (process_single_column st (.column nm tbl) graph tt tcn).transformations.map
          (fun t => (t.transformation_type, t.source_columns.length, t.confidence))
        = graph.transformations.map
            (fun t => (t.transformation_type, t.source_columns.length, t.confidence))
          ++ [(TransformationType.unknown, 0, (1 : ℚ)/2)]) := by
  constructor
  · intro htbl hres
    have hcol : resolve_column st nm tbl
        = some ⟨resolve_table_name st tbl, nm, st.default_database,
            st.default_schema, none⟩ := by
      rw [resolve_column]
      rw [if_pos htbl]
      rw [if_neg hres]
    simp only [process_single_column, hcol, ColumnLineageGraph.add_transformation,
      List.map_append]
    rfl
  · intro htbl
    have hcol : resolve_column st nm tbl = none := by
      simp [resolve_column, htbl]
    simp only [process_single_column, hcol, ColumnLineageGraph.add_transformation,
      List.map_append]
    rfl

def stFresh : ColumnLineageExtractor := {}

/-- C7 witness: the amended theorem at a fresh extractor, for the qualified
reference `t.id`. -/
theorem c7_bare_column_amended_witness :
    (process_single_column stFresh (.column "id" "t") {} "SELECT_RESULT"
        none).transformations.map
        (fun t => (t.transformation_type, t.source_columns.length, t.confidence))
      = (ColumnLineageGraph.transformations {}).map
          (fun t => (t.transformation_type, t.source_columns.length, t.confidence))
        ++ [(TransformationType.direct, 1, (1 : ℚ))] :=
  (c7_bare_column_amended stFresh {} "SELECT_RESULT" none "id" "t").1
    (by decide) (by decide)

def selC7 : SqlSelect := .mk [] [⟨"", "", "t", ""⟩] [.column "a" ""]

def stmtC7 : SqlStmt := .select selC7

/-- C7 counterexample: for `SELECT a FROM t` (a parseable single statement
whose only select-list entry is a bare, unaliased, *unqualified* column
reference) the extractor records `unknown` with zero source columns and
confidence 0.5 — not `direct` / one source / 1.0 as claimed. -/
theorem c7_counterexample :
    ((extract_column_lineage stFresh (.single stmtC7) none).2.transformations.map
        (fun t => (t.transformation_type, t.source_columns.length))
      = [(TransformationType.unknown, 0)])
    ∧ ((extract_column_lineage stFresh (.single stmtC7) none).2.transformations.map
        ColumnTransformation.confidence = [1/2])
    ∧ TransformationType.unknown ≠ TransformationType.direct
    ∧ ((1 : ℚ)/2 ≠ 1) := by
  refine ⟨rfl, rfl, by decide, by norm_num⟩

/-! ### C10 — instance state leaking across calls -/

def selAlias : SqlSelect := .mk [] [⟨"", "", "customers", "t"⟩] [.star ""]

def stmtAlias : SqlStmt := .select selAlias

def selX : SqlSelect := .mk [] [⟨"", "", "orders", ""⟩] [.column "c" "t"]

def stmtX : SqlStmt := .select selX

/-- C10 counterexample: extracting `SELECT * FROM customers AS t` first
registers the instance alias `t → customers`; a later
`SELECT t.c FROM orders` (identical arguments in both runs) then resolves
`t.c` to `customers.c` instead of `t.c`, so the alias map carried in
instance state across calls *does* change a later result. -/
theorem c10_counterexample :
    ((extract_column_lineage stFresh (.single stmtX) none).2.transformations.map
        (fun t => t.source_columns.map QualifiedColumn.fqn) = [["t.c"]])
    ∧ (((extract_column_lineage
          (extract_column_lineage stFresh (.single stmtAlias) none).1
          (.single stmtX) none).2).transformations.map
        (fun t => t.source_columns.map QualifiedColumn.fqn) = [["customers.c"]])
    ∧ (["t.c"] ≠ ["customers.c"]) := by
  refine ⟨rfl, rfl, by decide⟩

/-- A statement whose processing registers no table alias and no CTE: only
the `Select` path (`_process_select_statement`) writes instance state, and it
writes only for aliased tables and named CTEs. -/
def introducesNoBindings : SqlStmt → Bool
  | .select sel =>
      (selectTables sel).all (fun t => t.aliasName == "")
        && (selectAllCtes sel).isEmpty
  | _ => true

def parseIntroducesNoBindings : ParseResult → Bool
  | .failed => true
  | .single s => introducesNoBindings s
  | .multi [] => true
  | .multi (s :: _) => introducesNoBindings s

theorem extract_ctes_id (st : ColumnLineageExtractor) (sel : SqlSelect)
    (h : (selectAllCtes sel).isEmpty = true) : extract_ctes st sel = st := by
  unfold extract_ctes
  rw [List.isEmpty_iff.mp h]
  rfl

theorem foldl_id_of_fix {α β : Type} (f : α → β → α) (P : β → Prop)
    (hf : ∀ a b, P b → f a b = a) :
    ∀ (l : List β) (a : α), (∀ b ∈ l, P b) → l.foldl f a = a := by
  intro l
  induction l with
  | nil => intro a _; rfl
  | cons b rest ih =>
      intro a h
      rw [List.foldl_cons, hf a b (h b (by simp))]
      exact ih a (fun b' hb' => h b' (by simp [hb']))

theorem extract_table_aliases_id (st : ColumnLineageExtractor) (sel : SqlSelect)
    (h : ∀ t ∈ selectTables sel, t.aliasName = "") :
    extract_table_aliases st sel = st := by
  unfold extract_table_aliases
  exact foldl_id_of_fix _ (fun t => t.aliasName = "")
    (fun a t ht => by simp [ht]) (selectTables sel) st h

theorem dispatch_state_eq (st : ColumnLineageExtractor) (stmt : SqlStmt)
    (graph : ColumnLineageGraph) (tt : Option String)
    (h : introducesNoBindings stmt = true) :
    (dispatch_statement st stmt graph tt).1 = st := by
  cases stmt with
  | select sel =>
      simp only [introducesNoBindings, Bool.and_eq_true, List.all_eq_true] at h
      have h1 : ∀ t ∈ selectTables sel, t.aliasName = "" := by
        intro t ht
        simpa using h.1 t ht
      simp only [dispatch_statement, process_select_statement]
      rw [extract_ctes_id st sel h.2, extract_table_aliases_id st sel h1]
  | create target query => rfl
  | insert target cols query => rfl
  | merge target us => rfl
  | other => rfl

theorem extract_state_eq (st : ColumnLineageExtractor) (p : ParseResult)
    (tt : Option String) (h : parseIntroducesNoBindings p = true) :
    (extract_column_lineage st p tt).1 = st := by
  rw [extract_column_lineage.eq_def]
  by_cases hb : (match tt with
      | some t => (t != "") && !(validate_object_name t)
      | none => false) = true
  · rw [if_pos hb]
  · rw [if_neg hb]
    cases p with
    | failed => rfl
    | single stmt =>
        exact dispatch_state_eq st stmt _ tt (by simpa [parseIntroducesNoBindings] using h)
    | multi stmts =>
        cases stmts with
        | nil => rfl
        | cons stmt rest =>
            exact dispatch_state_eq st stmt _ tt
              (by simpa [parseIntroducesNoBindings] using h)

/-- C10 (amended): the result of `extract_column_lineage` is *not* determined
solely by its arguments and the constructor parameters — the instance's
table-alias and CTE maps persist across calls and can change a later result
(see the counterexample).  What does hold: a later call is unaffected by an
interleaved extraction whenever the interleaved statement registers no table
alias and no CTE (in particular any non-SELECT statement, or a SELECT with
only unaliased tables and no WITH clause), because only
`_extract_table_aliases` / `_extract_ctes` on the SELECT path write instance
state. -/
theorem c10_interleaving_amended (st : ColumnLineageExtractor)
    (pmid p : ParseResult) (ttmid tt : Option String)
    (h : parseIntroducesNoBindings pmid = true) :
    extract_column_lineage (extract_column_lineage st pmid ttmid).1 p tt
      = extract_column_lineage st p tt := by
  rw [extract_state_eq st pmid ttmid h]

/-- C10 witness: interleaving an alias-free statement
(`SELECT t.c FROM orders`) does not disturb a later identical call. -/
theorem c10_interleaving_amended_witness :
    extract_column_lineage
        (extract_column_lineage stFresh (.single stmtX) none).1
        (.single stmtX) none
      = extract_column_lineage stFresh (.single stmtX) none :=
  c10_interleaving_amended stFresh (.single stmtX) (.single stmtX) none none
    (by decide)

end SnowLineage
